import Mathlib

/-!
Verification of the Wipe repository's room/game coordinator core.

The definitions below are a shallow embedding of the TypeScript sources:
`src/lib/othello.ts` (board engine), `src/server/ai.ts` (minimax AI),
`src/server/game.ts` (game coordinator, PvE-aware variant),
`src/server/keys.ts` and `src/server/rooms.ts` (invite codes).

Cells hold `0` (empty), `1` (player 1 / black), `2` (player 2 / white).
Coordinates are integers as in the source; board reads in the engine are
always guarded by `inBounds`, so the out-of-range behaviour of `cellAt`
is never exercised.
-/

namespace Wipe

/-- The eight ray directions, in the source's order. -/
def DIRS : List (Int × Int) :=
  [(-1, -1), (0, -1), (1, -1), (-1, 0), (1, 0), (-1, 1), (0, 1), (1, 1)]

/-- `idx(x, y) = y * SIZE + x` with `SIZE = 8`. -/
def idx (x y : Int) : Int := y * 8 + x

/-- `inBounds(x, y)` from the source. -/
def inBounds (x y : Int) : Bool := 0 ≤ x && x < 8 && 0 ≤ y && y < 8

/-- `opponent(p)`: `p === 1 ? 2 : 1`. -/
def opponent (p : Nat) : Nat := if p = 1 then 2 else 1

/-- `createInitialBoard()`: 64 empty cells, then
`(3,3)=2, (4,4)=2, (3,4)=1, (4,3)=1`, i.e. indices 27, 36, 35, 28. -/
def createInitialBoard : List Nat :=
  ((((List.replicate 64 0).set 27 2).set 36 2).set 35 1).set 28 1

/-- `countDiscs(board)`: `(black, white)` counts. -/
def countDiscs (board : List Nat) : Nat × Nat :=
  (board.countP (fun d => decide (d = 1)), board.countP (fun d => decide (d = 2)))

/-- Board cell read `board[i]`; every read in the engine is guarded by
`inBounds`, so `i` is in `[0, 64)` at every use site. -/
def cellAt (board : List Nat) (i : Int) : Nat :=
  if 0 ≤ i then board.getD i.toNat 0 else 0

/-- The `while (inBounds(cx, cy))` walk of one ray inside `getFlips`,
with explicit fuel (the loop runs at most 8 in-bounds steps, and
`getFlips` supplies fuel 9). `line` is the accumulated run of opponent
cell indices. -/
def rayScan (board : List Nat) (player : Nat) (dx dy : Int) :
    Nat → Int → Int → List Int → List Int
  | 0, _, _, _ => []
  | fuel + 1, cx, cy, line =>
    if inBounds cx cy then
      let ci := idx cx cy
      let v := cellAt board ci
      if v = opponent player then
        rayScan board player dx dy fuel (cx + dx) (cy + dy) (line ++ [ci])
      else if v = player then
        (if 0 < line.length then line else [])
      else []
    else []

/-- `getFlips(board, x, y, player)`. -/
def getFlips (board : List Nat) (x y : Int) (player : Nat) : List Int :=
  if !inBounds x y then []
  else if cellAt board (idx x y) ≠ 0 then []
  else (DIRS.map (fun d => rayScan board player d.1 d.2 9 (x + d.1) (y + d.2) [])).flatten

/-- `isLegalMove(board, x, y, player)`. -/
def isLegalMove (board : List Nat) (x y : Int) (player : Nat) : Bool :=
  0 < (getFlips board x y player).length

/-- The loop values `0..7` of the source's `for` loops. -/
def coordVals : List Int := [0, 1, 2, 3, 4, 5, 6, 7]

/-- All 64 coordinates in the scan order of the source's double loop
(`y` outer, `x` inner). -/
def allCoords : List (Int × Int) :=
  coordVals.flatMap fun y => coordVals.map fun x => (x, y)

/-- `getLegalMoves(board, player)`. -/
def getLegalMoves (board : List Nat) (player : Nat) : List (Int × Int) :=
  allCoords.filter fun m => isLegalMove board m.1 m.2 player

/-- `hasAnyLegalMove(board, player)` (early-returning double loop). -/
def hasAnyLegalMove (board : List Nat) (player : Nat) : Bool :=
  allCoords.any fun m => isLegalMove board m.1 m.2 player

/-- `applyMove(board, x, y, player)`. -/
def applyMove (board : List Nat) (x y : Int) (player : Nat) : List Nat :=
  let flips := getFlips board x y player
  if flips.length = 0 then board
  else
    let next := board.set (idx x y).toNat player
    flips.foldl (fun b f => b.set f.toNat player) next

/-- `isBoardFull(board)`. -/
def isBoardFull (board : List Nat) : Bool := board.all fun d => decide (d ≠ 0)

/-- `computeWinner(board)`: `1` on black majority, `2` on white majority,
`0` on a tie. -/
def computeWinner (board : List Nat) : Nat :=
  let c := countDiscs board
  if c.2 < c.1 then 1 else if c.1 < c.2 then 2 else 0

end Wipe

namespace Wipe

/-- A pair is in `allCoords` exactly when it is in bounds. -/
theorem mem_allCoords (x y : Int) : ((x, y) ∈ allCoords) ↔ inBounds x y = true := by
  simp only [allCoords, coordVals, List.mem_flatMap, List.mem_map, Prod.mk.injEq,
    inBounds, Bool.and_eq_true, decide_eq_true_eq, List.mem_cons, List.not_mem_nil, or_false]
  constructor
  · rintro ⟨yv, hyv, xv, hxv, hx, hy⟩
    omega
  · rintro ⟨⟨⟨hx0, hx8⟩, hy0⟩, hy8⟩
    refine ⟨y, by omega, x, by omega, rfl, rfl⟩

/-- C9: for every board and player, `hasAnyLegalMove` returns true iff
`getLegalMoves` is non-empty, and `getLegalMoves` is empty exactly when no
cell on the board passes the direction-scan legality check `isLegalMove`. -/
theorem c9_hasAnyLegalMove_agrees (board : List Nat) (player : Nat) :
    (hasAnyLegalMove board player = true ↔ getLegalMoves board player ≠ []) ∧
    (getLegalMoves board player = [] ↔
      ∀ x y : Int, inBounds x y = true → isLegalMove board x y player = false) := by
  have hfil : getLegalMoves board player = [] ↔
      ∀ m ∈ allCoords, ¬ (isLegalMove board m.1 m.2 player = true) := by
    simp [getLegalMoves, List.filter_eq_nil_iff]
  constructor
  · rw [hasAnyLegalMove, List.any_eq_true]
    constructor
    · rintro ⟨m, hm, hLegal⟩ hnil
      exact (hfil.mp hnil) m hm hLegal
    · intro hne
      by_contra hno
      push_neg at hno
      exact hne (hfil.mpr hno)
  · rw [hfil]
    constructor
    · intro h x y hxy
      have hm : (x, y) ∈ allCoords := (mem_allCoords x y).mpr hxy
      have := h (x, y) hm
      simpa using this
    · intro h m hm
      have hb : inBounds m.1 m.2 = true := (mem_allCoords m.1 m.2).mp (by simpa using hm)
      simp [h m.1 m.2 hb]

/-- Witness: on the initial board player 1 has a legal move, and both sides
of C9 evaluate accordingly. -/
theorem c9_witness : hasAnyLegalMove createInitialBoard 1 = true := by
  have h := (c9_hasAnyLegalMove_agrees createInitialBoard 1).1
  exact h.mpr (by decide)

end Wipe

namespace Wipe

/-! ### Declarative capture specification for C1

`CapturesRun board x y p dx dy n` states, following the spec's words, that
the ray from `(x, y)` in direction `(dx, dy)` consists of a contiguous run
of `n ≥ 1` opponent discs immediately followed by a disc of `p`. -/

def CapturesRun (board : List Nat) (x y : Int) (p : Nat) (dx dy : Int) (n : Nat) : Prop :=
  1 ≤ n ∧
  (∀ k ∈ List.range (n + 1), 1 ≤ k →
    inBounds (x + dx * k) (y + dy * k) = true ∧
    cellAt board (idx (x + dx * k) (y + dy * k)) = opponent p) ∧
  inBounds (x + dx * (n + 1)) (y + dy * (n + 1)) = true ∧
  cellAt board (idx (x + dx * (n + 1)) (y + dy * (n + 1))) = p

instance (board : List Nat) (x y : Int) (p : Nat) (dx dy : Int) (n : Nat) :
    Decidable (CapturesRun board x y p dx dy n) := by
  unfold CapturesRun; infer_instance

/-- A cell index `i` is captured by playing `p` at `(x, y)`: it lies strictly
between the placed disc and the terminating same-color disc of some
direction's run. -/
def CapturedCellP (board : List Nat) (x y : Int) (p : Nat) (i : Int) : Prop :=
  ∃ d ∈ DIRS, ∃ n ∈ List.range 9, CapturesRun board x y p d.1 d.2 n ∧
    ∃ k ∈ List.range 9, 1 ≤ k ∧ k ≤ n ∧ i = idx (x + d.1 * k) (y + d.2 * k)

instance (board : List Nat) (x y : Int) (p : Nat) (i : Int) :
    Decidable (CapturedCellP board x y p i) := by
  unfold CapturedCellP; infer_instance

/-- Declarative legality: the target is an in-bounds empty cell and some
direction yields a contiguous opponent run terminated by a same-color disc. -/
def DeclLegal (board : List Nat) (x y : Int) (p : Nat) : Prop :=
  inBounds x y = true ∧ cellAt board (idx x y) = 0 ∧
    ∃ d ∈ DIRS, ∃ n ∈ List.range 9, CapturesRun board x y p d.1 d.2 n

instance (board : List Nat) (x y : Int) (p : Nat) : Decidable (DeclLegal board x y p) := by
  unfold DeclLegal; infer_instance

/-- The opponent of a player is never the player himself. -/
theorem opponent_ne (p : Nat) : opponent p ≠ p := by
  unfold opponent; split <;> omega

/-- At most 7 consecutive steps along any direction stay on the board when
the origin is on the board. -/
theorem ray_step_bound (dx dy x y : Int) (k : Nat) (hd : (dx, dy) ∈ DIRS)
    (hxy : inBounds x y = true) (hk : inBounds (x + dx * k) (y + dy * k) = true) :
    k ≤ 7 := by
  simp only [DIRS, List.mem_cons, List.not_mem_nil, or_false, Prod.mk.injEq] at hd
  simp only [inBounds, Bool.and_eq_true, decide_eq_true_eq] at hxy hk
  rcases hd with ⟨h1, h2⟩ | ⟨h1, h2⟩ | ⟨h1, h2⟩ | ⟨h1, h2⟩ | ⟨h1, h2⟩ | ⟨h1, h2⟩ | ⟨h1, h2⟩ | ⟨h1, h2⟩ <;>
    subst h1 <;> subst h2 <;> omega

end Wipe
namespace Wipe

/-- Index of the `k+1`-st cell along the ray from `(x, y)` in direction
`(dx, dy)` (so `k = 0` is the first cell after the origin). -/
def rayCellIdx (x y dx dy : Int) (k : Nat) : Int :=
  idx (x + dx * ((k : Int) + 1)) (y + dy * ((k : Int) + 1))

/-- Characterization of the ray walk: entered at step `j + 1` with the first
`j` ray cells known to be in-bounds opponent discs and the corresponding
accumulated `line`, `rayScan` returns exactly the capture run of the
direction, and the empty list when the direction captures nothing. -/
theorem rayScan_spec (board : List Nat) (p : Nat) (dx dy x y : Int)
    (hd : (dx, dy) ∈ DIRS) (hxy : inBounds x y = true) :
    ∀ fuel j : Nat, fuel + j = 9 → j ≤ 7 →
    (∀ k : Nat, 1 ≤ k → k ≤ j →
      inBounds (x + dx * k) (y + dy * k) = true ∧
      cellAt board (idx (x + dx * k) (y + dy * k)) = opponent p) →
    (∀ n, n < 9 → CapturesRun board x y p dx dy n →
      rayScan board p dx dy fuel (x + dx * ((j : Int) + 1)) (y + dy * ((j : Int) + 1))
          ((List.range j).map (rayCellIdx x y dx dy))
        = (List.range n).map (rayCellIdx x y dx dy)) ∧
    ((∀ n, n < 9 → ¬ CapturesRun board x y p dx dy n) →
      rayScan board p dx dy fuel (x + dx * ((j : Int) + 1)) (y + dy * ((j : Int) + 1))
          ((List.range j).map (rayCellIdx x y dx dy))
        = []) := by
  intro fuel
  induction fuel with
  | zero => intro j hfj hj hrun; omega
  | succ fuel ih =>
    intro j hfj hj hrun
    have hcast : ((j : Int) + 1) = ((j + 1 : Nat) : Int) := by push_cast; ring
    by_cases hin : inBounds (x + dx * ((j : Int) + 1)) (y + dy * ((j : Int) + 1)) = true
    · by_cases hv : cellAt board (idx (x + dx * ((j : Int) + 1)) (y + dy * ((j : Int) + 1)))
          = opponent p
      · -- opponent disc: recurse
        have hj7 : j + 1 ≤ 7 := by
          refine ray_step_bound dx dy x y (j + 1) hd hxy ?_
          rw [← hcast]; exact hin
        have hrun' : ∀ k : Nat, 1 ≤ k → k ≤ j + 1 →
            inBounds (x + dx * k) (y + dy * k) = true ∧
            cellAt board (idx (x + dx * k) (y + dy * k)) = opponent p := by
          intro k hk1 hk2
          rcases Nat.lt_or_ge k (j + 1) with h | h
          · exact hrun k hk1 (by omega)
          · have hkj : k = j + 1 := by omega
            subst hkj
            rw [← hcast]
            exact ⟨hin, hv⟩
        have hstep := ih (j + 1) (by omega) hj7 hrun'
        have hline : ((List.range j).map (rayCellIdx x y dx dy)) ++
              [idx (x + dx * ((j : Int) + 1)) (y + dy * ((j : Int) + 1))] =
            (List.range (j + 1)).map (rayCellIdx x y dx dy) := by
          rw [List.range_succ, List.map_append]
          rfl
        have hpos1 : x + dx * ((j : Int) + 1) + dx = x + dx * (((j + 1 : Nat) : Int) + 1) := by
          push_cast; ring
        have hpos2 : y + dy * ((j : Int) + 1) + dy = y + dy * (((j + 1 : Nat) : Int) + 1) := by
          push_cast; ring
        constructor
        · intro n hn hcap
          rw [rayScan]
          simp only [hin, if_true]
          rw [hv, if_pos rfl, hline, hpos1, hpos2]
          exact hstep.1 n hn hcap
        · intro hno
          rw [rayScan]
          simp only [hin, if_true]
          rw [hv, if_pos rfl, hline, hpos1, hpos2]
          exact hstep.2 hno
      · by_cases hv2 : cellAt board (idx (x + dx * ((j : Int) + 1)) (y + dy * ((j : Int) + 1)))
            = p
        · -- same-color disc terminates the run here
          constructor
          · intro n hn hcap
            obtain ⟨hn1, hcells, hend, hendcell⟩ := hcap
            have hnj : n = j := by
              by_contra hne
              rcases Nat.lt_or_ge n j with h | h
              · have h1 := (hrun (n + 1) (by omega) (by omega)).2
                have hop : opponent p = p := by
                  rw [← h1]
                  rw [show (((n + 1 : Nat) : Int)) = ((n : Int) + 1) by push_cast; ring]
                  exact hendcell
                exact opponent_ne p hop
              · have h1 := (hcells (j + 1) (by simp only [List.mem_range]; omega) (by omega)).2
                rw [show (((j + 1 : Nat) : Int)) = ((j : Int) + 1) by push_cast; ring] at h1
                exact hv h1
            subst hnj
            rw [rayScan]
            simp only [hin, if_true]
            rw [hv2, if_neg (fun h => opponent_ne p h.symm), if_pos rfl]
            have hlen : 0 < ((List.range n).map (rayCellIdx x y dx dy)).length := by
              simp only [List.length_map, List.length_range]; omega
            rw [if_pos hlen]
          · intro hno
            rw [rayScan]
            simp only [hin, if_true]
            rw [hv2, if_neg (fun h => opponent_ne p h.symm), if_pos rfl]
            rcases Nat.eq_zero_or_pos j with hj0 | hjpos
            · subst hj0; simp
            · exfalso
              refine hno j (by omega) ⟨hjpos, ?_, ?_, ?_⟩
              · intro k hk hk1
                refine hrun k hk1 (by simp only [List.mem_range] at hk; omega)
              · exact hin
              · exact hv2
        · -- empty or foreign cell: no capture in this direction
          constructor
          · intro n hn hcap
            exfalso
            obtain ⟨hn1, hcells, hend, hendcell⟩ := hcap
            rcases Nat.lt_or_ge n j with h | h
            · have h1 := (hrun (n + 1) (by omega) (by omega)).2
              have hop : opponent p = p := by
                rw [← h1]
                rw [show (((n + 1 : Nat) : Int)) = ((n : Int) + 1) by push_cast; ring]
                exact hendcell
              exact opponent_ne p hop
            · rcases Nat.lt_or_ge j n with h2 | h2
              · have h1 := (hcells (j + 1) (by simp only [List.mem_range]; omega) (by omega)).2
                rw [show (((j + 1 : Nat) : Int)) = ((j : Int) + 1) by push_cast; ring] at h1
                exact hv h1
              · have hnj : n = j := by omega
                subst hnj
                exact hv2 hendcell
          · intro _
            rw [rayScan]
            simp only [hin, if_true]
            rw [if_neg hv, if_neg hv2]
    · -- walked off the board: no capture in this direction
      have hin' : inBounds (x + dx * ((j : Int) + 1)) (y + dy * ((j : Int) + 1)) = false := by
        simpa using hin
      constructor
      · intro n hn hcap
        exfalso
        obtain ⟨hn1, hcells, hend, hendcell⟩ := hcap
        rcases Nat.lt_or_ge n j with h | h
        · have h1 := (hrun (n + 1) (by omega) (by omega)).2
          have hop : opponent p = p := by
            rw [← h1]
            rw [show (((n + 1 : Nat) : Int)) = ((n : Int) + 1) by push_cast; ring]
            exact hendcell
          exact opponent_ne p hop
        · rcases Nat.lt_or_ge j n with h2 | h2
          · have h1 := (hcells (j + 1) (by simp only [List.mem_range]; omega) (by omega)).1
            rw [show (((j + 1 : Nat) : Int)) = ((j : Int) + 1) by push_cast; ring] at h1
            rw [hin'] at h1
            exact Bool.false_ne_true h1
          · have hnj : n = j := by omega
            subst hnj
            rw [hin'] at hend
            exact Bool.false_ne_true hend
      · intro _
        rw [rayScan]
        rw [if_neg hin]

end Wipe
namespace Wipe

/-- Per-direction corollary of `rayScan_spec` at the entry point used by
`getFlips` (step 1, empty accumulator). -/
theorem rayScan_start (board : List Nat) (p : Nat) (x y : Int) (d : Int × Int)
    (hd : d ∈ DIRS) (hxy : inBounds x y = true) :
    (∀ n, n < 9 → CapturesRun board x y p d.1 d.2 n →
      rayScan board p d.1 d.2 9 (x + d.1) (y + d.2) []
        = (List.range n).map (rayCellIdx x y d.1 d.2)) ∧
    ((∀ n, n < 9 → ¬ CapturesRun board x y p d.1 d.2 n) →
      rayScan board p d.1 d.2 9 (x + d.1) (y + d.2) [] = []) := by
  have hd' : (d.1, d.2) ∈ DIRS := by simpa using hd
  have h := rayScan_spec board p d.1 d.2 x y hd' hxy 9 0 (by omega) (by omega)
    (by intro k hk1 hk2; omega)
  simpa using h

/-- Membership in `getFlips` coincides with the declarative capture
predicate on an in-bounds empty target cell. -/
theorem mem_getFlips (board : List Nat) (x y : Int) (p : Nat) (i : Int) :
    i ∈ getFlips board x y p ↔
      inBounds x y = true ∧ cellAt board (idx x y) = 0 ∧ CapturedCellP board x y p i := by
  unfold getFlips
  by_cases hxy : inBounds x y = true
  · rw [if_neg (by simp [hxy])]
    by_cases hc : cellAt board (idx x y) = 0
    · rw [if_neg (by simp [hc])]
      rw [List.mem_flatten]
      constructor
      · rintro ⟨l, hl, hi⟩
        rw [List.mem_map] at hl
        obtain ⟨d, hd, rfl⟩ := hl
        by_cases hcap : ∃ n, n < 9 ∧ CapturesRun board x y p d.1 d.2 n
        · obtain ⟨n, hn, hcapn⟩ := hcap
          rw [(rayScan_start board p x y d hd hxy).1 n hn hcapn] at hi
          rw [List.mem_map] at hi
          obtain ⟨k0, hk0, rfl⟩ := hi
          rw [List.mem_range] at hk0
          refine ⟨hxy, hc, d, hd, n, by simp only [List.mem_range]; omega, hcapn,
            k0 + 1, by simp only [List.mem_range]; omega, by omega, by omega, ?_⟩
          unfold rayCellIdx
          push_cast
          ring_nf
        · rw [(rayScan_start board p x y d hd hxy).2
            (by intro n hn hcapn; exact hcap ⟨n, hn, hcapn⟩)] at hi
          exact absurd hi (List.not_mem_nil i)
      · rintro ⟨_, _, d, hd, n, hn9, hcapn, k, hk9, hk1, hkn, rfl⟩
        rw [List.mem_range] at hn9
        refine ⟨rayScan board p d.1 d.2 9 (x + d.1) (y + d.2) [], ?_, ?_⟩
        · rw [List.mem_map]
          exact ⟨d, hd, rfl⟩
        · rw [(rayScan_start board p x y d hd hxy).1 n hn9 hcapn]
          rw [List.mem_map]
          refine ⟨k - 1, by rw [List.mem_range]; omega, ?_⟩
          unfold rayCellIdx
          have hk : ((k - 1 : Nat) : Int) + 1 = (k : Int) := by omega
          rw [hk]
    · rw [if_pos (by simpa using hc)]
      simp only [List.not_mem_nil, false_iff, not_and]
      intro _ hc2
      exact absurd hc2 hc
  · rw [if_pos (by simpa using hxy)]
    simp only [List.not_mem_nil, false_iff, not_and]
    intro hb
    exact absurd hb hxy

/-- `getFlips` is empty exactly when the move is not declaratively legal. -/
theorem getFlips_eq_nil (board : List Nat) (x y : Int) (p : Nat) :
    getFlips board x y p = [] ↔ ¬ DeclLegal board x y p := by
  constructor
  · intro hnil ⟨hxy, hc, d, hd, n, hn9, hcapn⟩
    rw [List.mem_range] at hn9
    have h := (rayScan_start board p x y d hd hxy).1 n hn9 hcapn
    have hmem : rayCellIdx x y d.1 d.2 0 ∈ getFlips board x y p := by
      rw [mem_getFlips]
      exact ⟨hxy, hc, d, hd, n, by rw [List.mem_range]; omega, hcapn,
        1, by rw [List.mem_range]; omega, by omega, hcapn.1, by
          unfold rayCellIdx; push_cast; ring_nf⟩
    rw [hnil] at hmem
    exact absurd hmem (List.not_mem_nil _)
  · intro hnl
    rcases List.eq_nil_or_concat (getFlips board x y p) with h | ⟨l, a, h⟩
    · exact h
    · exfalso
      have hmem : a ∈ getFlips board x y p := by rw [h]; simp
      rw [mem_getFlips] at hmem
      obtain ⟨hxy, hc, d, hd, n, hn9, hcapn, _⟩ := hmem
      exact hnl ⟨hxy, hc, d, hd, n, hn9, hcapn⟩

end Wipe
namespace Wipe

/-- In-bounds coordinates give cell indices in `[0, 64)`. -/
theorem idx_bounds (x y : Int) (h : inBounds x y = true) : 0 ≤ idx x y ∧ idx x y < 64 := by
  simp only [inBounds, Bool.and_eq_true, decide_eq_true_eq] at h
  unfold idx
  omega

/-- Every index returned by `getFlips` is in `[0, 64)`. -/
theorem getFlips_bounds (board : List Nat) (x y : Int) (p : Nat) :
    ∀ i ∈ getFlips board x y p, 0 ≤ i ∧ i < 64 := by
  intro i hi
  rw [mem_getFlips] at hi
  obtain ⟨_, _, d, hd, n, hn9, hcapn, k, hk9, hk1, hkn, rfl⟩ := hi
  have h := (hcapn.2.1 k (by rw [List.mem_range]; omega) hk1).1
  exact idx_bounds _ _ h

/-- Setting a list of in-range indices to `p` and reading back. -/
theorem foldl_set_getD (p : Nat) :
    ∀ (l : List Int) (b : List Nat) (j : Nat),
    (∀ i ∈ l, 0 ≤ i ∧ i < (b.length : Int)) → j < b.length →
    (l.foldl (fun acc f => acc.set f.toNat p) b).getD j 0 =
      if (j : Int) ∈ l then p else b.getD j 0 := by
  intro l
  induction l with
  | nil => intro b j _ _; simp
  | cons a t ih =>
    intro b j hl hj
    have ha := hl a (by simp)
    rw [List.foldl_cons]
    rw [ih (b.set a.toNat p) j
      (by intro i hi; simpa using hl i (by simp [hi])) (by simpa using hj)]
    by_cases hja : (j : Int) = a
    · have hja' : a.toNat = j := by omega
      by_cases hjt : (j : Int) ∈ t
      · rw [if_pos hjt, if_pos (by simp [hja, hjt])]
      · rw [if_neg hjt, if_pos (by simp [hja])]
        subst hja'
        rw [List.getD_eq_getElem?_getD, List.getElem?_set_eq_of_lt p hj]
        rfl
    · by_cases hjt : (j : Int) ∈ t
      · rw [if_pos hjt, if_pos (by simp [hjt])]
      · rw [if_neg hjt, if_neg (by simp [hja, hjt])]
        rw [List.getD_eq_getElem?_getD, List.getElem?_set_ne (by omega),
          ← List.getD_eq_getElem?_getD]

/-- Folding `set` over a list preserves the length. -/
theorem foldl_set_length (p : Nat) :
    ∀ (l : List Int) (b : List Nat),
    (l.foldl (fun acc f => acc.set f.toNat p) b).length = b.length := by
  intro l
  induction l with
  | nil => intro b; rfl
  | cons a t ih => intro b; rw [List.foldl_cons, ih, List.length_set]

end Wipe
namespace Wipe

/-- C1: for every 64-cell board, player and coordinate pair, if the move is
illegal (no direction yields a contiguous run of opponent discs terminated
by a same-player disc on an in-bounds empty target) then `applyMove`
returns the board unchanged (it is a total function, so it never throws);
if the move is legal, `applyMove` sets the target cell to the player,
flips exactly the captured cells, and changes no other cell. -/
theorem c1_applyMove_correct (board : List Nat) (p : Nat) (x y : Int)
    (hb : board.length = 64) :
    (¬ DeclLegal board x y p → applyMove board x y p = board) ∧
    (DeclLegal board x y p →
      (applyMove board x y p).length = 64 ∧
      ∀ j : Nat, j < 64 →
        (applyMove board x y p).getD j 0 =
          if (j : Int) = idx x y ∨ CapturedCellP board x y p (j : Int) then p
          else board.getD j 0) := by
  constructor
  · intro hnl
    unfold applyMove
    rw [(getFlips_eq_nil board x y p).mpr hnl]
    simp
  · intro hl
    have hne : getFlips board x y p ≠ [] := by
      rw [Ne, getFlips_eq_nil]
      exact not_not_intro hl
    have hlen0 : ¬ (getFlips board x y p).length = 0 := by
      simpa [List.length_eq_zero] using hne
    obtain ⟨hxy, hc0, -⟩ := hl
    have htb := idx_bounds x y hxy
    have hsetlen : (board.set (idx x y).toNat p).length = 64 := by
      rw [List.length_set, hb]
    have hibnds : ∀ i ∈ getFlips board x y p,
        0 ≤ i ∧ i < (((board.set (idx x y).toNat p).length : Nat) : Int) := by
      intro i hi
      have h := getFlips_bounds board x y p i hi
      rw [hsetlen]
      exact ⟨h.1, by exact_mod_cast h.2⟩
    constructor
    · unfold applyMove
      rw [if_neg hlen0]
      rw [foldl_set_length, hsetlen]
    · intro j hj
      unfold applyMove
      rw [if_neg hlen0]
      rw [foldl_set_getD p _ _ j hibnds (by rw [hsetlen]; exact hj)]
      by_cases hjf : (j : Int) ∈ getFlips board x y p
      · rw [if_pos hjf, if_pos (Or.inr ((mem_getFlips board x y p j).mp hjf).2.2)]
      · rw [if_neg hjf]
        by_cases hjt : (j : Int) = idx x y
        · have htn : (idx x y).toNat = j := by omega
          rw [if_pos (Or.inl hjt), ← htn, List.getD_eq_getElem?_getD,
            List.getElem?_set_eq_of_lt p (by rw [hb]; omega)]
          rfl
        · rw [if_neg (by
            rintro (h | h)
            · exact hjt h
            · exact hjf ((mem_getFlips board x y p j).mpr ⟨hxy, hc0, h⟩))]
          rw [List.getD_eq_getElem?_getD, List.getElem?_set_ne (by omega),
            ← List.getD_eq_getElem?_getD]

/-- Witness for C1: on the initial board, the illegal move (0,0) leaves the
board unchanged, and the legal move (2,3) by player 1 turns cell 27 into a
player-1 disc while leaving cell 0 untouched. -/
theorem c1_witness :
    applyMove createInitialBoard 0 0 1 = createInitialBoard ∧
    (applyMove createInitialBoard 2 3 1).getD 27 0 = 1 ∧
    (applyMove createInitialBoard 2 3 1).getD 0 0 = 0 := by
  refine ⟨(c1_applyMove_correct createInitialBoard 1 0 0 (by decide)).1 (by decide), ?_, ?_⟩
  · have h := ((c1_applyMove_correct createInitialBoard 1 2 3 (by decide)).2 (by decide)).2
      27 (by decide)
    rw [h, if_pos (by right; decide)]
  · have h := ((c1_applyMove_correct createInitialBoard 1 2 3 (by decide)).2 (by decide)).2
      0 (by decide)
    rw [h, if_neg (by decide)]
    decide

end Wipe

namespace Wipe

/-! ### Shallow embedding of `src/server/ai.ts`

`minimax` is written with the depth argument first and its two inner `for`
loops as the higher-order helpers `abMaxF`/`abMinF` (the child evaluator
`f` closes over the recursive call at `depth - 1`, exactly the depth the
source passes to every child call inside the loops); this keeps the
recursion structural so that the definitions compute by reduction. -/

def CORNERS : List Nat := [0, 7, 56, 63]

def X_SQUARES : List Nat := [9, 14, 49, 54]

def C_SQUARES : List Nat := [1, 6, 8, 15, 48, 55, 57, 62]

/-- Board cell read with a `Nat` index (`board[i]` on indices that are
statically in `[0, 64)`). -/
def cellN (board : List Nat) (i : Nat) : Nat := board.getD i 0

/-- `evalBoard(board, me)`: corner, mobility, material and danger terms with
phase-dependent weights. -/
def evalBoard (board : List Nat) (me : Nat) : Int :=
  let opp := opponent me
  let c := countDiscs board
  let discDiff : Int := if me = 1 then (c.1 : Int) - (c.2 : Int) else (c.2 : Int) - (c.1 : Int)
  let mobility : Int :=
    ((getLegalMoves board me).length : Int) - ((getLegalMoves board opp).length : Int)
  let cornerScore : Int := CORNERS.foldl
    (fun s i => if cellN board i = me then s + 1 else if cellN board i = opp then s - 1 else s) 0
  let dangerX : Int := X_SQUARES.foldl
    (fun s i => if cellN board i = me then s - 1 else if cellN board i = opp then s + 1 else s) 0
  let danger : Int := C_SQUARES.foldl
    (fun s i => if cellN board i = me then s - 1 else if cellN board i = opp then s + 1 else s)
    dangerX
  let phase := c.1 + c.2
  let wDisc : Int := if phase < 44 then 1 else 3
  let wMob : Int := if phase < 44 then 8 else 3
  60 * cornerScore + wMob * mobility + wDisc * discDiff + 12 * danger

/-- Stand-in for JS `-Infinity` in the alpha-beta window. Evaluation scores
are bounded by 1088 in absolute value (`evalBoard_bound` below), so this
sentinel compares exactly like `-Infinity` throughout the search. -/
def NEG_INF : Int := -(10 ^ 9)

/-- Stand-in for JS `Infinity`. -/
def POS_INF : Int := 10 ^ 9

/-- The maximizing loop of `minimax`: `best`/`alpha` updates and the
`beta <= alpha` cutoff; `f next alpha beta` is the child call. -/
def abMaxF (f : List Nat → Int → Int → Int) (board : List Nat) (toMove : Nat) :
    List (Int × Int) → Int → Int → Int → Int
  | [], _, _, best => best
  | m :: rest, alpha, beta, best =>
    let next := applyMove board m.1 m.2 toMove
    let v := f next alpha beta
    let best1 := if best < v then v else best
    let alpha1 := if alpha < v then v else alpha
    if beta ≤ alpha1 then best1
    else abMaxF f board toMove rest alpha1 beta best1

/-- The minimizing loop of `minimax`: `best`/`beta` updates and the
`beta <= alpha` cutoff. -/
def abMinF (f : List Nat → Int → Int → Int) (board : List Nat) (toMove : Nat) :
    List (Int × Int) → Int → Int → Int → Int
  | [], _, _, best => best
  | m :: rest, alpha, beta, best =>
    let next := applyMove board m.1 m.2 toMove
    let v := f next alpha beta
    let best1 := if v < best then v else best
    let beta1 := if v < beta then v else beta
    if beta1 ≤ alpha then best1
    else abMinF f board toMove rest alpha beta1 best1

/-- `minimax(board, toMove, me, depth, alpha, beta)` from the source (depth
argument first). -/
def minimax : Nat → List Nat → Nat → Nat → Int → Int → Int
  | depth, board, toMove, me, alpha, beta =>
    if !hasAnyLegalMove board me && !hasAnyLegalMove board (opponent me) then evalBoard board me
    else
      match depth with
      | 0 => evalBoard board me
      | d + 1 =>
        let moves := getLegalMoves board toMove
        if moves = [] then minimax d board (opponent toMove) me alpha beta
        else if toMove = me then
          abMaxF (fun next a b => minimax d next (opponent toMove) me a b) board toMove moves
            alpha beta NEG_INF
        else
          abMinF (fun next a b => minimax d next (opponent toMove) me a b) board toMove moves
            alpha beta POS_INF

/-- Maximizing loop with the pruning cutoffs removed (reference for C10). -/
def npMaxF (f : List Nat → Int) (board : List Nat) (toMove : Nat) :
    List (Int × Int) → Int → Int
  | [], best => best
  | m :: rest, best =>
    let v := f (applyMove board m.1 m.2 toMove)
    npMaxF f board toMove rest (if best < v then v else best)

/-- Minimizing loop with the pruning cutoffs removed (reference for C10). -/
def npMinF (f : List Nat → Int) (board : List Nat) (toMove : Nat) :
    List (Int × Int) → Int → Int
  | [], best => best
  | m :: rest, best =>
    let v := f (applyMove board m.1 m.2 toMove)
    npMinF f board toMove rest (if v < best then v else best)

/-- Reference search for C10: the identical recursion with the alpha-beta
window and its cutoffs removed. -/
def minimaxNP : Nat → List Nat → Nat → Nat → Int
  | depth, board, toMove, me =>
    if !hasAnyLegalMove board me && !hasAnyLegalMove board (opponent me) then evalBoard board me
    else
      match depth with
      | 0 => evalBoard board me
      | d + 1 =>
        let moves := getLegalMoves board toMove
        if moves = [] then minimaxNP d board (opponent toMove) me
        else if toMove = me then
          npMaxF (fun next => minimaxNP d next (opponent toMove) me) board toMove moves NEG_INF
        else
          npMinF (fun next => minimaxNP d next (opponent toMove) me) board toMove moves POS_INF

/-- `pickRandom(moves)`: the random 32-bit word is a parameter `rng`; the
source reduces it modulo the list length. -/
def pickRandom (moves : List (Int × Int)) (rng : Nat) : Int × Int :=
  moves.getD (rng % moves.length) (0, 0)

/-- The `depthByLevel = [0, 1, 3, 5]` table indexed by the clamped level. -/
def depthByLevel (lv : Int) : Nat :=
  if lv = 1 then 1 else if lv = 2 then 3 else if lv = 3 then 5 else 0

/-- The scored-move selection loop of `chooseAiMove`; `cdepth` is
`depth - 1`, the depth the source passes to `minimax` for each candidate
move. -/
def bestLoop (board : List Nat) (ai : Nat) (cdepth : Nat) :
    List (Int × Int) → Option ((Int × Int) × Int) → Option ((Int × Int) × Int)
  | [], best => best
  | m :: rest, best =>
    let next := applyMove board m.1 m.2 ai
    let s := minimax cdepth next (opponent ai) ai NEG_INF POS_INF
    let best1 := match best with
      | none => some (m, s)
      | some b => if b.2 < s then some (m, s) else some b
    bestLoop board ai cdepth rest best1

/-- `chooseAiMove(board, ai, level)` with the random word as a parameter
(used only on the level-0 path and the unreachable null-best fallback). -/
def chooseAiMove (board : List Nat) (ai : Nat) (level : Int) (rng : Nat) : Option (Int × Int) :=
  let moves := getLegalMoves board ai
  if moves = [] then none
  else
    let lv := max 0 (min 3 level)
    if lv = 0 then some (pickRandom moves rng)
    else
      let depth := depthByLevel lv
      match bestLoop board ai (depth - 1) moves none with
      | some b => some b.1
      | none => some (pickRandom moves rng)

end Wipe

namespace Wipe

/-! ### Shallow embedding of `src/server/game.ts` (PvE-aware variant)

`Date.now()` is modelled by an explicit `now` parameter, the `coinFlip()`
results by explicit `flip : Bool` parameters, and the AI random word by
`rng : Nat`.  Handicap index lists are modelled over `Int` (the source's
`Number()`/`isFinite`/`floor` coercion is the identity on integers). -/

inductive GameStatus where
  | waiting
  | playing
  | finished
deriving DecidableEq, Repr

inductive Color where
  | black
  | white
deriving DecidableEq, Repr

/-- The fields of `RoomMeta` consumed by the game coordinator. -/
structure RoomMeta where
  pve : Bool
  handicapBlack : List Int
  handicapWhite : List Int
  humanPlays : Option Color
  humanPlaysResolved : Option Color
deriving DecidableEq, Repr

structure GameState where
  roomId : String
  board : List Nat
  status : GameStatus
  turn : Option Nat
  passStreak : Nat
  winner : Option Nat
  blackToken : Option String
  whiteToken : Option String
  lastMove : Option (Int × Int × Nat)
  updatedAt : Nat
deriving DecidableEq, Repr

/-- The public projection `publicGameState(state)`. -/
structure PublicGameState where
  roomId : String
  board : List Nat
  status : GameStatus
  turn : Option Nat
  passStreak : Nat
  winner : Option Nat
  blackCount : Nat
  whiteCount : Nat
  lastMove : Option (Int × Int × Nat)
  updatedAt : Nat
deriving DecidableEq, Repr

def publicGameState (s : GameState) : PublicGameState :=
  { roomId := s.roomId
    board := s.board
    status := s.status
    turn := s.turn
    passStreak := s.passStreak
    winner := s.winner
    blackCount := (countDiscs s.board).1
    whiteCount := (countDiscs s.board).2
    lastMove := s.lastMove
    updatedAt := s.updatedAt }

/-- `sanitizeHandicap(meta)`: keep indices in `[0, 63]`, de-duplicated, and
drop white cells already requested as black. -/
def addHandicapIdx (s : List Int) (i : Int) : List Int :=
  if i < 0 ∨ 63 < i then s else if i ∈ s then s else s ++ [i]

def sanitizeHandicap (meta : RoomMeta) : List Int × List Int :=
  let black := meta.handicapBlack.foldl addHandicapIdx []
  let white := meta.handicapWhite.foldl
    (fun s i =>
      if i < 0 ∨ 63 < i then s else if i ∈ black then s
      else if i ∈ s then s else s ++ [i]) []
  (black, white)

/-- `applyHandicap(board, handicap)`: stamp black cells then white cells,
each only onto a currently-empty in-range cell. -/
def applyHandicap (board : List Nat) (handicap : List Int × List Int) : List Nat :=
  let next := handicap.1.foldl
    (fun b i => if i < 0 ∨ 63 < i then b else if b.getD i.toNat 0 = 0 then b.set i.toNat 1 else b)
    board
  handicap.2.foldl
    (fun b i => if i < 0 ∨ 63 < i then b else if b.getD i.toNat 0 = 0 then b.set i.toNat 2 else b)
    next

/-- `fillSlotsFromPlayers(state, players)`. -/
def fillSlot (s : GameState) (token : String) : GameState :=
  if s.blackToken = some token ∨ s.whiteToken = some token then s
  else if s.blackToken = none then { s with blackToken := some token }
  else if s.whiteToken = none then { s with whiteToken := some token }
  else s

def fillSlotsFromPlayers (s : GameState) (players : List String) : GameState :=
  (players.take 2).foldl fillSlot s

/-- Modelled from the spec: the sentinel token that "represents AI when
applicable" (`AI_TOKEN` is imported from a `keys.ts` revision that is not
part of the sources; only its use sites are). Its concrete value is never
compared against anything but itself. -/
def AI_TOKEN : String := "__AI__"

/-- `resolveHumanColor(roomId, meta)`: honor the pinned resolution, then the
preference, then a coin flip. -/
def resolveHumanColor (meta : RoomMeta) (flip : Bool) : Color :=
  match meta.humanPlaysResolved with
  | some c => c
  | none =>
    match meta.humanPlays with
    | some c => c
    | none => if flip then Color.black else Color.white

/-- `assignAiOpponent`: give the human its resolved color, the AI sentinel
the other. -/
def assignAiOpponent (s : GameState) (humanToken : String) (humanColor : Color) : GameState :=
  match humanColor with
  | Color.black => { s with blackToken := some humanToken, whiteToken := some AI_TOKEN }
  | Color.white => { s with blackToken := some AI_TOKEN, whiteToken := some humanToken }

/-- The `ensureGame` branch for an absent game record: lazy initialization. -/
def ensureGameAbsent (roomId : String) (players : List String) (meta : RoomMeta) (now : Nat)
    (flip : Bool) : GameState :=
  let board := applyHandicap createInitialBoard (sanitizeHandicap meta)
  if meta.pve then
    match players.head? with
    | some only =>
      assignAiOpponent
        { roomId := roomId, board := board, status := GameStatus.playing, turn := some 1,
          passStreak := 0, winner := none, blackToken := none, whiteToken := none,
          lastMove := none, updatedAt := now }
        only (resolveHumanColor meta flip)
    | none =>
      { roomId := roomId, board := board, status := GameStatus.waiting, turn := none,
        passStreak := 0, winner := none, blackToken := none, whiteToken := none,
        lastMove := none, updatedAt := now }
  else
    if 2 ≤ players.length then
      { roomId := roomId, board := board, status := GameStatus.playing, turn := some 1,
        passStreak := 0, winner := none,
        blackToken := some (if flip then players.getD 0 "" else players.getD 1 ""),
        whiteToken := some (if flip then players.getD 1 "" else players.getD 0 ""),
        lastMove := none, updatedAt := now }
    else
      { roomId := roomId, board := board, status := GameStatus.waiting, turn := none,
        passStreak := 0, winner := none, blackToken := none, whiteToken := none,
        lastMove := none, updatedAt := now }

/-- The `ensureGame` branch for an existing game record: fill free color
slots and start a waiting game whose playability threshold is now met. -/
def ensureGamePresent (s0 : GameState) (players : List String) (meta : RoomMeta) (now : Nat)
    (flip : Bool) : GameState :=
  let s := fillSlotsFromPlayers s0 players
  if meta.pve then
    match players.head? with
    | some only =>
      if s.status = GameStatus.waiting then
        assignAiOpponent
          { s with status := GameStatus.playing, turn := some 1, passStreak := 0,
                   winner := none, updatedAt := now }
          only (resolveHumanColor meta flip)
      else s
    | none => s
  else
    if 2 ≤ players.length ∧ s.status = GameStatus.waiting then
      { s with status := GameStatus.playing, turn := some 1, passStreak := 0,
               winner := none, updatedAt := now }
    else s

/-- `mePlayerFromState(state, token)`. -/
def mePlayerFromState (s : GameState) (token : String) : Option Nat :=
  if s.blackToken = some token then some 1
  else if s.whiteToken = some token then some 2
  else none

/-- `isAiTurn(state, meta)` (`!meta.pve` is rendered as an equality test
with `false`). -/
def isAiTurn (s : GameState) (meta : RoomMeta) : Bool :=
  if meta.pve = false then false
  else if s.status ≠ GameStatus.playing ∨ s.turn = none then false
  else if s.turn = some 1 ∧ s.blackToken = some AI_TOKEN then true
  else if s.turn = some 2 ∧ s.whiteToken = some AI_TOKEN then true
  else false

/-- The shared "mark the game finished" mutation (status, turn, winner). -/
def forceFinish (s : GameState) : GameState :=
  { s with status := GameStatus.finished, turn := none,
           winner := some (computeWinner s.board) }

/-- `finishIfNeeded(state)`. -/
def finishIfNeeded (s : GameState) : GameState :=
  if !hasAnyLegalMove s.board 1 && !hasAnyLegalMove s.board 2 then forceFinish s
  else if isBoardFull s.board then forceFinish s
  else s

inductive GameError where
  | gameNotStarted
  | notAPlayer
  | notYourTurn
  | illegalMove
  | passNotAllowed
deriving DecidableEq, Repr

/-- The `POST /game/move` handler body after `ensureGame`: its thrown
errors become `Except.error`. -/
def moveHandler (s : GameState) (token : String) (x y : Int) (now : Nat) :
    Except GameError GameState :=
  if s.status ≠ GameStatus.playing ∨ s.turn = none then Except.error GameError.gameNotStarted
  else
    match mePlayerFromState s token with
    | none => Except.error GameError.notAPlayer
    | some me =>
      if s.turn ≠ some me then Except.error GameError.notYourTurn
      else if (x, y) ∈ getLegalMoves s.board me then
        Except.ok (finishIfNeeded
          { s with board := applyMove s.board x y me,
                   lastMove := some (x, y, me),
                   passStreak := 0,
                   turn := some (opponent me),
                   updatedAt := now })
      else Except.error GameError.illegalMove

/-- The `POST /game/pass` handler body after `ensureGame`. -/
def passHandler (s : GameState) (token : String) (now : Nat) :
    Except GameError GameState :=
  if s.status ≠ GameStatus.playing ∨ s.turn = none then Except.error GameError.gameNotStarted
  else
    match mePlayerFromState s token with
    | none => Except.error GameError.notAPlayer
    | some me =>
      if s.turn ≠ some me then Except.error GameError.notYourTurn
      else if getLegalMoves s.board me ≠ [] then Except.error GameError.passNotAllowed
      else
        let s1 := { s with turn := some (opponent me),
                           passStreak := s.passStreak + 1,
                           updatedAt := now }
        Except.ok (if 2 ≤ s1.passStreak then forceFinish s1 else finishIfNeeded s1)

/-- A request as persisted: a thrown (rejected) request leaves the stored
state untouched, a successful one stores the updated state. -/
def moveRequest (s : GameState) (token : String) (x y : Int) (now : Nat) :
    GameState × Option GameError :=
  match moveHandler s token x y now with
  | Except.ok s1 => (s1, none)
  | Except.error e => (s, some e)

def passRequest (s : GameState) (token : String) (now : Nat) :
    GameState × Option GameError :=
  match passHandler s token now with
  | Except.ok s1 => (s1, none)
  | Except.error e => (s, some e)

/-- One iteration of the `aiStepLoop` body (the part guarded by the lock):
`none` when the loop would `break`. -/
def aiStepOnce (s : GameState) (meta : RoomMeta) (lv : Int) (rng : Nat) (now : Nat) :
    Option GameState :=
  if isAiTurn s meta = false then none
  else
    match s.turn with
    | none => none
    | some aiPlayer =>
      let moves := getLegalMoves s.board aiPlayer
      if moves = [] then
        let s1 := { s with turn := some (opponent aiPlayer),
                           passStreak := s.passStreak + 1,
                           updatedAt := now }
        some (if 2 ≤ s1.passStreak then forceFinish s1 else finishIfNeeded s1)
      else
        match chooseAiMove s.board aiPlayer lv rng with
        | none => none
        | some m =>
          some (finishIfNeeded
            { s with board := applyMove s.board m.1 m.2 aiPlayer,
                     lastMove := some (m.1, m.2, aiPlayer),
                     passStreak := 0,
                     turn := some (opponent aiPlayer),
                     updatedAt := now })

/-- One coordinator transition on a stored game state. -/
def Step (s s1 : GameState) : Prop :=
  (∃ players meta now flip, s1 = ensureGamePresent s players meta now flip) ∨
  (∃ token x y now, moveHandler s token x y now = Except.ok s1) ∨
  (∃ token now, passHandler s token now = Except.ok s1) ∨
  (∃ meta lv rng now, aiStepOnce s meta lv rng now = some s1)

/-- Game states reachable from lazy initialization through coordinator
transitions. -/
inductive Reachable : GameState → Prop where
  | init (roomId : String) (players : List String) (meta : RoomMeta) (now : Nat) (flip : Bool) :
      Reachable (ensureGameAbsent roomId players meta now flip)
  | step (s s1 : GameState) : Reachable s → Step s s1 → Reachable s1

/-- The three finish conditions of the spec. -/
def FinishCond (s : GameState) : Prop :=
  2 ≤ s.passStreak ∨
  (hasAnyLegalMove s.board 1 = false ∧ hasAnyLegalMove s.board 2 = false) ∨
  isBoardFull s.board = true

end Wipe
namespace Wipe

/-- C8: the public game-state projection carries exactly the board, status,
turn, pass count, winner, the two disc counts, last move, update timestamp
and room id, and never the token identities: two states that differ only in
their black/white token bindings produce equal projections. -/
theorem c8_public_projection_token_free (s : GameState) (bt wt bt1 wt1 : Option String) :
    publicGameState { s with blackToken := bt, whiteToken := wt } =
      publicGameState { s with blackToken := bt1, whiteToken := wt1 } := rfl

/-- C3: a move request succeeds iff the game is playing, the caller's token
is bound to the color whose turn it is and the coordinate is among that
color's legal moves; every other request fails with a typed error and
leaves the stored state unchanged; a successful request applies the move,
records it as last move, resets the pass counter to 0, flips the turn,
refreshes the timestamp and then evaluates the finish conditions. -/
theorem c3_move_request (s : GameState) (token : String) (x y : Int) (now : Nat) :
    ((moveRequest s token x y now).2 = none ↔
      (s.status = GameStatus.playing ∧ ∃ me, mePlayerFromState s token = some me ∧
        s.turn = some me ∧ (x, y) ∈ getLegalMoves s.board me)) ∧
    ((moveRequest s token x y now).2 ≠ none → (moveRequest s token x y now).1 = s) ∧
    (∀ me, mePlayerFromState s token = some me → s.status = GameStatus.playing →
      s.turn = some me → (x, y) ∈ getLegalMoves s.board me →
      (moveRequest s token x y now).1 = finishIfNeeded
        { s with board := applyMove s.board x y me,
                 lastMove := some (x, y, me),
                 passStreak := 0,
                 turn := some (opponent me),
                 updatedAt := now }) := by
  by_cases h1 : s.status ≠ GameStatus.playing ∨ s.turn = none
  · refine ⟨⟨fun h => ?_, fun h => ?_⟩, fun _ => ?_, fun me hme hpl hturn _ => ?_⟩
    · exfalso
      simp only [moveRequest, moveHandler, if_pos h1] at h
      exact Option.noConfusion h
    · exfalso
      obtain ⟨hpl, me, hme, hturn, _⟩ := h
      rcases h1 with h | h
      · exact h hpl
      · rw [h] at hturn; cases hturn
    · simp only [moveRequest, moveHandler, if_pos h1]
    · exfalso
      rcases h1 with h | h
      · exact h hpl
      · rw [h] at hturn; cases hturn
  · push_neg at h1
    obtain ⟨hpl, hturnne⟩ := h1
    have h1' : ¬ (s.status ≠ GameStatus.playing ∨ s.turn = none) := by
      push_neg; exact ⟨by rw [hpl], hturnne⟩
    cases hme : mePlayerFromState s token with
    | none =>
      refine ⟨⟨fun h => ?_, fun h => ?_⟩, fun _ => ?_, fun me hme' => ?_⟩
      · exfalso
        simp only [moveRequest, moveHandler, if_neg h1', hme] at h
        exact Option.noConfusion h
      · exfalso
        obtain ⟨_, me, hme', _⟩ := h
        exact Option.noConfusion hme'
      · simp only [moveRequest, moveHandler, if_neg h1', hme]
      · exfalso; exact Option.noConfusion hme'
    | some me =>
      by_cases hturn : s.turn ≠ some me
      · refine ⟨⟨fun h => ?_, fun h => ?_⟩, fun _ => ?_, fun me' hme' hpl' hturn' _ => ?_⟩
        · exfalso
          simp only [moveRequest, moveHandler, if_neg h1', hme, if_pos hturn] at h
          exact Option.noConfusion h
        · exfalso
          obtain ⟨_, me', hme', hturn', _⟩ := h
          cases hme'
          exact hturn hturn'
        · simp only [moveRequest, moveHandler, if_neg h1', hme, if_pos hturn]
        · cases hme'
          exact absurd hturn' hturn
      · push_neg at hturn
        by_cases hleg : (x, y) ∈ getLegalMoves s.board me
        · refine ⟨⟨fun _ => ⟨hpl, me, rfl, hturn, hleg⟩, fun _ => ?_⟩, fun h => ?_,
            fun me' hme' _ _ _ => ?_⟩
          · simp only [moveRequest, moveHandler, if_neg h1', hme,
              if_neg (not_not_intro hturn), if_pos hleg]
          · exfalso
            apply h
            simp only [moveRequest, moveHandler, if_neg h1', hme,
              if_neg (not_not_intro hturn), if_pos hleg]
          · cases hme'
            simp only [moveRequest, moveHandler, if_neg h1', hme,
              if_neg (not_not_intro hturn), if_pos hleg]
        · refine ⟨⟨fun h => ?_, fun h => ?_⟩, fun _ => ?_, fun me' hme' hpl' hturn' hleg' => ?_⟩
          · exfalso
            simp only [moveRequest, moveHandler, if_neg h1', hme,
              if_neg (not_not_intro hturn), if_neg hleg] at h
            exact Option.noConfusion h
          · exfalso
            obtain ⟨_, me', hme', hturn', hleg'⟩ := h
            cases hme'
            exact hleg hleg'
          · simp only [moveRequest, moveHandler, if_neg h1', hme,
              if_neg (not_not_intro hturn), if_neg hleg]
          · cases hme'
            exact absurd hleg' hleg

end Wipe
namespace Wipe

/-- A concrete two-player game on the fresh initial board. -/
def sampleGame : GameState :=
  { roomId := "r", board := createInitialBoard, status := GameStatus.playing, turn := some 1,
    passStreak := 0, winner := none, blackToken := some "b", whiteToken := some "w",
    lastMove := none, updatedAt := 0 }

/-- Witness for C3: on `sampleGame`, black's move (2,3) is accepted, and
white's out-of-turn request is rejected leaving the stored state unchanged. -/
theorem c3_witness :
    (moveRequest sampleGame "b" 2 3 5).2 = none ∧
    (moveRequest sampleGame "w" 2 3 5).1 = sampleGame := by
  constructor
  · exact (c3_move_request sampleGame "b" 2 3 5).1.mpr ⟨rfl, 1, rfl, rfl, by decide⟩
  · exact (c3_move_request sampleGame "w" 2 3 5).2.1 (by decide)

/-- C4: for a playing game, a pass by the current mover is accepted exactly
when that mover has no legal move (and is otherwise rejected with a typed
error, the stored state unchanged); an accepted pass flips the turn,
increments the pass counter by one, refreshes the timestamp and evaluates
the finish conditions, and a pass counter reaching 2 finishes the game with
the disc-count winner regardless of the next mover's legal moves. -/
theorem c4_pass_request (s : GameState) (token : String) (now : Nat) :
    ((passRequest s token now).2 = none ↔
      (s.status = GameStatus.playing ∧ ∃ me, mePlayerFromState s token = some me ∧
        s.turn = some me ∧ getLegalMoves s.board me = [])) ∧
    ((passRequest s token now).2 ≠ none → (passRequest s token now).1 = s) ∧
    (∀ me, mePlayerFromState s token = some me → s.status = GameStatus.playing →
      s.turn = some me → getLegalMoves s.board me = [] →
      ((passRequest s token now).1 =
        (if 2 ≤ s.passStreak + 1 then
          forceFinish { s with turn := some (opponent me), passStreak := s.passStreak + 1,
                               updatedAt := now }
         else
          finishIfNeeded { s with turn := some (opponent me), passStreak := s.passStreak + 1,
                                  updatedAt := now }) ∧
       (passRequest s token now).1.passStreak = s.passStreak + 1 ∧
       (passRequest s token now).1.updatedAt = now)) ∧
    (∀ me, mePlayerFromState s token = some me → s.status = GameStatus.playing →
      s.turn = some me → getLegalMoves s.board me = [] → 2 ≤ s.passStreak + 1 →
      ((passRequest s token now).1.status = GameStatus.finished ∧
       (passRequest s token now).1.turn = none ∧
       (passRequest s token now).1.winner = some (computeWinner s.board))) := by
  by_cases h1 : s.status ≠ GameStatus.playing ∨ s.turn = none
  · refine ⟨⟨fun h => ?_, fun h => ?_⟩, fun _ => ?_, fun me hme hpl hturn _ => ?_,
      fun me hme hpl hturn _ _ => ?_⟩
    · exfalso
      simp only [passRequest, passHandler, if_pos h1] at h
      exact Option.noConfusion h
    · exfalso
      obtain ⟨hpl, me, hme, hturn, _⟩ := h
      rcases h1 with h | h
      · exact h hpl
      · rw [h] at hturn; cases hturn
    · simp only [passRequest, passHandler, if_pos h1]
    all_goals
      exfalso
      rcases h1 with h | h
      · exact h hpl
      · rw [h] at hturn; cases hturn
  · push_neg at h1
    obtain ⟨hpl, hturnne⟩ := h1
    have h1' : ¬ (s.status ≠ GameStatus.playing ∨ s.turn = none) := by
      push_neg; exact ⟨by rw [hpl], hturnne⟩
    cases hme : mePlayerFromState s token with
    | none =>
      refine ⟨⟨fun h => ?_, fun h => ?_⟩, fun _ => ?_, fun me hme' => ?_, fun me hme' => ?_⟩
      · exfalso
        simp only [passRequest, passHandler, if_neg h1', hme] at h
        exact Option.noConfusion h
      · exfalso
        obtain ⟨_, me, hme', _⟩ := h
        exact Option.noConfusion hme'
      · simp only [passRequest, passHandler, if_neg h1', hme]
      all_goals exact absurd hme' (fun hh => Option.noConfusion hh)
    | some me =>
      by_cases hturn : s.turn ≠ some me
      · refine ⟨⟨fun h => ?_, fun h => ?_⟩, fun _ => ?_, fun me' hme' hpl' hturn' _ => ?_,
          fun me' hme' hpl' hturn' _ _ => ?_⟩
        · exfalso
          simp only [passRequest, passHandler, if_neg h1', hme, if_pos hturn] at h
          exact Option.noConfusion h
        · exfalso
          obtain ⟨_, me', hme', hturn', _⟩ := h
          cases hme'
          exact hturn hturn'
        · simp only [passRequest, passHandler, if_neg h1', hme, if_pos hturn]
        all_goals
          cases hme'
          exact absurd hturn' hturn
      · push_neg at hturn
        by_cases hleg : getLegalMoves s.board me = []
        · refine ⟨⟨fun _ => ⟨hpl, me, rfl, hturn, hleg⟩, fun _ => ?_⟩, fun h => ?_,
            fun me' hme' _ _ _ => ?_, fun me' hme' _ _ _ hps => ?_⟩
          · simp only [passRequest, passHandler, if_neg h1', hme,
              if_neg (not_not_intro hturn), if_neg (not_not_intro hleg)]
          · exfalso
            apply h
            simp only [passRequest, passHandler, if_neg h1', hme,
              if_neg (not_not_intro hturn), if_neg (not_not_intro hleg)]
          · cases hme'
            simp only [passRequest, passHandler, if_neg h1', hme,
              if_neg (not_not_intro hturn), if_neg (not_not_intro hleg)]
            refine ⟨trivial, ?_, ?_⟩ <;>
              simp only [finishIfNeeded, forceFinish] <;>
              split <;>
                first
                  | rfl
                  | (split <;> first | rfl | (split <;> rfl))
          · cases hme'
            simp only [passRequest, passHandler, if_neg h1', hme,
              if_neg (not_not_intro hturn), if_neg (not_not_intro hleg), if_pos hps]
            exact ⟨rfl, rfl, rfl⟩
        · refine ⟨⟨fun h => ?_, fun h => ?_⟩, fun _ => ?_, fun me' hme' hpl' hturn' hleg' => ?_,
            fun me' hme' hpl' hturn' hleg' _ => ?_⟩
          · exfalso
            simp only [passRequest, passHandler, if_neg h1', hme,
              if_neg (not_not_intro hturn), if_pos hleg] at h
            exact Option.noConfusion h
          · exfalso
            obtain ⟨_, me', hme', hturn', hleg'⟩ := h
            cases hme'
            exact hleg hleg'
          · simp only [passRequest, passHandler, if_neg h1', hme,
              if_neg (not_not_intro hturn), if_pos hleg]
          all_goals
            cases hme'
            exact absurd hleg' hleg

end Wipe
namespace Wipe

/-- A position where white (to move) has no legal move but black has one:
black disc at cell 0, white disc at cell 1, pass streak already 1. -/
def passSample : GameState :=
  { roomId := "r", board := ((List.replicate 64 0).set 0 1).set 1 2,
    status := GameStatus.playing, turn := some 2, passStreak := 1, winner := none,
    blackToken := some "b", whiteToken := some "w", lastMove := none, updatedAt := 0 }

/-- Witness for C4: white's pass on `passSample` is accepted and, the pass
counter reaching 2, finishes the game although black still had a legal
move. -/
theorem c4_witness :
    (passRequest passSample "w" 7).2 = none ∧
    (passRequest passSample "w" 7).1.status = GameStatus.finished ∧
    (passRequest passSample "w" 7).1.turn = none ∧
    (passRequest passSample "w" 7).1.winner = some (computeWinner passSample.board) ∧
    hasAnyLegalMove passSample.board 1 = true := by
  have h := (c4_pass_request passSample "w" 7).2.2.2 2 rfl rfl rfl (by decide) (by decide)
  exact ⟨(c4_pass_request passSample "w" 7).1.mpr ⟨rfl, 2, rfl, rfl, by decide⟩,
    h.1, h.2.1, h.2.2, by decide⟩

/-- A successful move request passed every check and produced the updated
state. -/
theorem moveHandler_ok_shape (s : GameState) (token : String) (x y : Int) (now : Nat)
    (s1 : GameState) (h : moveHandler s token x y now = Except.ok s1) :
    ∃ me, s.status = GameStatus.playing ∧ mePlayerFromState s token = some me ∧
      s.turn = some me ∧ (x, y) ∈ getLegalMoves s.board me ∧
      s1 = finishIfNeeded
        { s with board := applyMove s.board x y me, lastMove := some (x, y, me),
                 passStreak := 0, turn := some (opponent me), updatedAt := now } := by
  unfold moveHandler at h
  by_cases h1 : s.status ≠ GameStatus.playing ∨ s.turn = none
  · rw [if_pos h1] at h; cases h
  · rw [if_neg h1] at h
    push_neg at h1
    cases hme : mePlayerFromState s token with
    | none => simp only [hme] at h; cases h
    | some me =>
      simp only [hme] at h
      by_cases hturn : s.turn ≠ some me
      · rw [if_pos hturn] at h; cases h
      · rw [if_neg hturn] at h
        push_neg at hturn
        by_cases hleg : (x, y) ∈ getLegalMoves s.board me
        · rw [if_pos hleg] at h
          injection h with h2
          exact ⟨me, h1.1, rfl, hturn, hleg, h2.symm⟩
        · rw [if_neg hleg] at h; cases h

/-- A successful pass request passed every check and produced the updated
state. -/
theorem passHandler_ok_shape (s : GameState) (token : String) (now : Nat)
    (s1 : GameState) (h : passHandler s token now = Except.ok s1) :
    ∃ me, s.status = GameStatus.playing ∧ mePlayerFromState s token = some me ∧
      s.turn = some me ∧ getLegalMoves s.board me = [] ∧
      s1 = (if 2 ≤ s.passStreak + 1 then
              forceFinish { s with turn := some (opponent me),
                                   passStreak := s.passStreak + 1, updatedAt := now }
            else
              finishIfNeeded { s with turn := some (opponent me),
                                      passStreak := s.passStreak + 1, updatedAt := now }) := by
  unfold passHandler at h
  by_cases h1 : s.status ≠ GameStatus.playing ∨ s.turn = none
  · rw [if_pos h1] at h; cases h
  · rw [if_neg h1] at h
    push_neg at h1
    cases hme : mePlayerFromState s token with
    | none => simp only [hme] at h; cases h
    | some me =>
      simp only [hme] at h
      by_cases hturn : s.turn ≠ some me
      · rw [if_pos hturn] at h; cases h
      · rw [if_neg hturn] at h
        push_neg at hturn
        by_cases hleg : getLegalMoves s.board me ≠ []
        · rw [if_pos hleg] at h; cases h
        · rw [if_neg hleg] at h
          push_neg at hleg
          injection h with h2
          exact ⟨me, h1.1, rfl, hturn, hleg, h2.symm⟩

/-- `isAiTurn` only holds on a playing state with a non-null turn. -/
theorem isAiTurn_playing (s : GameState) (meta : RoomMeta)
    (h : isAiTurn s meta = true) :
    s.status = GameStatus.playing ∧ ∃ q, s.turn = some q := by
  unfold isAiTurn at h
  by_cases hp : meta.pve = false
  · rw [if_pos hp] at h; cases h
  · rw [if_neg hp] at h
    by_cases hq : s.status ≠ GameStatus.playing ∨ s.turn = none
    · rw [if_pos hq] at h; cases h
    · push_neg at hq
      refine ⟨hq.1, ?_⟩
      cases ht : s.turn with
      | none => exact absurd ht hq.2
      | some q => exact ⟨q, rfl⟩

/-- A successful AI step produced either a forced pass or an applied move. -/
theorem aiStepOnce_some_shape (s : GameState) (meta : RoomMeta) (lv : Int) (rng : Nat)
    (now : Nat) (s1 : GameState) (h : aiStepOnce s meta lv rng now = some s1) :
    ∃ aiPlayer, s.status = GameStatus.playing ∧ s.turn = some aiPlayer ∧
      ((getLegalMoves s.board aiPlayer = [] ∧
        s1 = (if 2 ≤ s.passStreak + 1 then
                forceFinish { s with turn := some (opponent aiPlayer),
                                     passStreak := s.passStreak + 1, updatedAt := now }
              else
                finishIfNeeded { s with turn := some (opponent aiPlayer),
                                        passStreak := s.passStreak + 1, updatedAt := now })) ∨
       (∃ m : Int × Int, s1 = finishIfNeeded
          { s with board := applyMove s.board m.1 m.2 aiPlayer,
                   lastMove := some (m.1, m.2, aiPlayer), passStreak := 0,
                   turn := some (opponent aiPlayer), updatedAt := now })) := by
  unfold aiStepOnce at h
  by_cases hai : isAiTurn s meta = false
  · rw [if_pos hai] at h; cases h
  · rw [if_neg hai] at h
    have hait : isAiTurn s meta = true := by
      revert hai; cases isAiTurn s meta <;> simp
    obtain ⟨hpl, q, hq⟩ := isAiTurn_playing s meta hait
    simp only [hq] at h
    by_cases hleg : getLegalMoves s.board q = []
    · rw [if_pos hleg] at h
      injection h with h2
      exact ⟨q, hpl, hq, Or.inl ⟨hleg, h2.symm⟩⟩
    · rw [if_neg hleg] at h
      cases hcm : chooseAiMove s.board q lv rng with
      | none => simp only [hcm] at h; cases h
      | some m =>
        simp only [hcm] at h
        injection h with h2
        exact ⟨q, hpl, hq, Or.inr ⟨m, h2.symm⟩⟩

end Wipe
namespace Wipe

/-- The per-state invariant of C2. -/
def InvP (s : GameState) : Prop :=
  (s.status = GameStatus.finished → s.turn = none ∧ s.winner = some (computeWinner s.board)) ∧
  (s.status = GameStatus.playing → s.turn ≠ none)

theorem invP_forceFinish (s : GameState) : InvP (forceFinish s) :=
  ⟨fun _ => ⟨rfl, rfl⟩, fun h => by cases h⟩

theorem invP_finishIfNeeded (s : GameState) (hs : s.status = GameStatus.playing)
    (ht : s.turn ≠ none) : InvP (finishIfNeeded s) := by
  unfold finishIfNeeded
  split
  · exact invP_forceFinish s
  · split
    · exact invP_forceFinish s
    · exact ⟨fun h => absurd (hs.symm.trans h) (by simp), fun _ => ht⟩

theorem finishIfNeeded_spec (t : GameState) :
    (finishIfNeeded t).board = t.board ∧ (finishIfNeeded t).passStreak = t.passStreak ∧
    (((hasAnyLegalMove t.board 1 = false ∧ hasAnyLegalMove t.board 2 = false) ∨
        isBoardFull t.board = true) →
      (finishIfNeeded t).status = GameStatus.finished) ∧
    ((finishIfNeeded t).status = GameStatus.finished →
      t.status = GameStatus.finished ∨
        (hasAnyLegalMove t.board 1 = false ∧ hasAnyLegalMove t.board 2 = false) ∨
        isBoardFull t.board = true) := by
  unfold finishIfNeeded forceFinish
  by_cases h1 : (!hasAnyLegalMove t.board 1 && !hasAnyLegalMove t.board 2) = true
  · rw [if_pos h1]
    simp only [Bool.and_eq_true, Bool.not_eq_true'] at h1
    exact ⟨rfl, rfl, fun _ => rfl, fun _ => Or.inr (Or.inl h1)⟩
  · rw [if_neg h1]
    by_cases h2 : isBoardFull t.board = true
    · rw [if_pos h2]
      exact ⟨rfl, rfl, fun _ => rfl, fun _ => Or.inr (Or.inr h2)⟩
    · rw [if_neg h2]
      simp only [Bool.and_eq_true, Bool.not_eq_true'] at h1
      refine ⟨rfl, rfl, fun hc => ?_, fun hf => Or.inl hf⟩
      rcases hc with hc | hc
      · exact absurd hc h1
      · exact absurd hc h2

theorem forceFinish_fields (t : GameState) :
    (forceFinish t).board = t.board ∧ (forceFinish t).passStreak = t.passStreak ∧
    (forceFinish t).status = GameStatus.finished :=
  ⟨rfl, rfl, rfl⟩

theorem fillSlot_fields (s : GameState) (t : String) :
    (fillSlot s t).board = s.board ∧ (fillSlot s t).status = s.status ∧
    (fillSlot s t).turn = s.turn ∧ (fillSlot s t).winner = s.winner ∧
    (fillSlot s t).passStreak = s.passStreak := by
  unfold fillSlot
  split
  · exact ⟨rfl, rfl, rfl, rfl, rfl⟩
  · split
    · exact ⟨rfl, rfl, rfl, rfl, rfl⟩
    · split
      · exact ⟨rfl, rfl, rfl, rfl, rfl⟩
      · exact ⟨rfl, rfl, rfl, rfl, rfl⟩

theorem fillSlotsFromPlayers_fields (players : List String) (s : GameState) :
    (fillSlotsFromPlayers s players).board = s.board ∧
    (fillSlotsFromPlayers s players).status = s.status ∧
    (fillSlotsFromPlayers s players).turn = s.turn ∧
    (fillSlotsFromPlayers s players).winner = s.winner ∧
    (fillSlotsFromPlayers s players).passStreak = s.passStreak := by
  unfold fillSlotsFromPlayers
  generalize players.take 2 = l
  induction l generalizing s with
  | nil => exact ⟨rfl, rfl, rfl, rfl, rfl⟩
  | cons a t ih =>
    rw [List.foldl_cons]
    have h1 := fillSlot_fields s a
    have h2 := ih (fillSlot s a)
    exact ⟨h2.1.trans h1.1, h2.2.1.trans h1.2.1, h2.2.2.1.trans h1.2.2.1,
      h2.2.2.2.1.trans h1.2.2.2.1, h2.2.2.2.2.trans h1.2.2.2.2⟩

theorem assignAiOpponent_fields (s : GameState) (t : String) (c : Color) :
    (assignAiOpponent s t c).board = s.board ∧ (assignAiOpponent s t c).status = s.status ∧
    (assignAiOpponent s t c).turn = s.turn ∧ (assignAiOpponent s t c).winner = s.winner ∧
    (assignAiOpponent s t c).passStreak = s.passStreak := by
  cases c <;> exact ⟨rfl, rfl, rfl, rfl, rfl⟩

theorem invP_congr (s1 s2 : GameState) (hb : s1.board = s2.board)
    (hst : s1.status = s2.status) (ht : s1.turn = s2.turn) (hw : s1.winner = s2.winner)
    (h : InvP s2) : InvP s1 := by
  unfold InvP at h ⊢
  rw [hb, hst, ht, hw]
  exact h

theorem invP_mk (s : GameState)
    (h1 : s.status = GameStatus.finished → s.turn = none ∧ s.winner = some (computeWinner s.board))
    (h2 : s.status = GameStatus.playing → s.turn ≠ none) : InvP s := ⟨h1, h2⟩

theorem invP_assignAiOpponent (s : GameState) (t : String) (c : Color) (h : InvP s) :
    InvP (assignAiOpponent s t c) := by
  have ha := assignAiOpponent_fields s t c
  exact invP_congr _ _ ha.1 ha.2.1 ha.2.2.1 ha.2.2.2.1 h

theorem invP_ensureGameAbsent (roomId : String) (players : List String) (meta : RoomMeta)
    (now : Nat) (flip : Bool) : InvP (ensureGameAbsent roomId players meta now flip) := by
  unfold ensureGameAbsent
  split
  · split
    · apply invP_assignAiOpponent
      exact invP_mk _ (fun hf => absurd hf (by simp)) (fun _ => by simp)
    · exact invP_mk _ (fun hf => absurd hf (by simp)) (fun hp => absurd hp (by simp))
  · split
    · exact invP_mk _ (fun hf => absurd hf (by simp)) (fun _ => by simp)
    · exact invP_mk _ (fun hf => absurd hf (by simp)) (fun hp => absurd hp (by simp))

theorem invP_ensureGamePresent (s : GameState) (players : List String) (meta : RoomMeta)
    (now : Nat) (flip : Bool) (h : InvP s) :
    InvP (ensureGamePresent s players meta now flip) := by
  have hfs := fillSlotsFromPlayers_fields players s
  have hinv1 : InvP (fillSlotsFromPlayers s players) :=
    invP_congr _ _ hfs.1 hfs.2.1 hfs.2.2.1 hfs.2.2.2.1 h
  simp only [ensureGamePresent]
  split
  · split
    · split
      · apply invP_assignAiOpponent
        exact invP_mk _ (fun hf => absurd hf (by simp)) (fun _ => by simp)
      · exact hinv1
    · exact hinv1
  · split
    · exact invP_mk _ (fun hf => absurd hf (by simp)) (fun _ => by simp)
    · exact hinv1

end Wipe
namespace Wipe

theorem ensureGamePresent_status_finished (s : GameState) (players : List String)
    (meta : RoomMeta) (now : Nat) (flip : Bool)
    (h : (ensureGamePresent s players meta now flip).status = GameStatus.finished) :
    s.status = GameStatus.finished := by
  have hfs := fillSlotsFromPlayers_fields players s
  simp only [ensureGamePresent] at h
  split at h
  · split at h
    · split at h
      · rw [(assignAiOpponent_fields _ _ _).2.1] at h
        exact absurd h (by simp)
      · rw [← hfs.2.1]; exact h
    · rw [← hfs.2.1]; exact h
  · split at h
    · exact absurd h (by simp)
    · rw [← hfs.2.1]; exact h

/-- C2 (amended): every reachable state satisfies the finished/playing
invariants (finished ⇒ turn null and winner = disc-count majority;
playing ⇒ turn non-null); a transition into `finished` happens only with a
finish condition holding in the target state; and after every successful
move, pass or AI step the finish conditions are also sufficient for
`finished`.  Lazy initialization does not evaluate finish conditions (see
the counterexample), which is the one correction to the claim. -/
theorem c2_game_state_machine :
    (∀ s, Reachable s →
      (s.status = GameStatus.finished →
        s.turn = none ∧ s.winner = some (computeWinner s.board)) ∧
      (s.status = GameStatus.playing → s.turn ≠ none)) ∧
    (∀ s s1, Step s s1 → s.status ≠ GameStatus.finished →
      s1.status = GameStatus.finished → FinishCond s1) ∧
    (∀ s token x y now s1, moveHandler s token x y now = Except.ok s1 →
      FinishCond s1 → s1.status = GameStatus.finished) ∧
    (∀ s token now s1, passHandler s token now = Except.ok s1 →
      FinishCond s1 → s1.status = GameStatus.finished) ∧
    (∀ s meta lv rng now s1, aiStepOnce s meta lv rng now = some s1 →
      FinishCond s1 → s1.status = GameStatus.finished) := by
  have hmoveInv : ∀ s token x y now s1, moveHandler s token x y now = Except.ok s1 → InvP s1 := by
    intro s token x y now s1 h
    obtain ⟨me, hpl, hme, hturn, hleg, ht1⟩ := moveHandler_ok_shape _ _ _ _ _ _ h
    subst ht1
    exact invP_finishIfNeeded _ hpl (by simp)
  have hpassInv : ∀ s token now s1, passHandler s token now = Except.ok s1 → InvP s1 := by
    intro s token now s1 h
    obtain ⟨me, hpl, hme, hturn, hleg, ht1⟩ := passHandler_ok_shape _ _ _ _ h
    subst ht1
    split
    · exact invP_forceFinish _
    · exact invP_finishIfNeeded _ hpl (by simp)
  have haiInv : ∀ s meta lv rng now s1, aiStepOnce s meta lv rng now = some s1 → InvP s1 := by
    intro s meta lv rng now s1 h
    obtain ⟨q, hpl, hq, hcase⟩ := aiStepOnce_some_shape _ _ _ _ _ _ h
    rcases hcase with ⟨hleg, ht1⟩ | ⟨m, ht1⟩ <;> subst ht1
    · split
      · exact invP_forceFinish _
      · exact invP_finishIfNeeded _ hpl (by simp)
    · exact invP_finishIfNeeded _ hpl (by simp)
  refine ⟨?_, ?_, ?_, ?_, ?_⟩
  · intro s hr
    induction hr with
    | init rid players meta now flip => exact invP_ensureGameAbsent rid players meta now flip
    | step t t1 hr hstep ih =>
      rcases hstep with ⟨players, meta, now, flip, rfl⟩ | ⟨token, x, y, now, h⟩ |
        ⟨token, now, h⟩ | ⟨meta, lv, rng, now, h⟩
      · exact invP_ensureGamePresent t players meta now flip ih
      · exact hmoveInv _ _ _ _ _ _ h
      · exact hpassInv _ _ _ _ h
      · exact haiInv _ _ _ _ _ _ h
  · intro s s1 hstep hnf hf
    rcases hstep with ⟨players, meta, now, flip, rfl⟩ | ⟨token, x, y, now, h⟩ |
      ⟨token, now, h⟩ | ⟨meta, lv, rng, now, h⟩
    · exact absurd (ensureGamePresent_status_finished s players meta now flip hf) hnf
    · obtain ⟨me, hpl, hme, hturn, hleg, ht1⟩ := moveHandler_ok_shape _ _ _ _ _ _ h
      subst ht1
      have hs := finishIfNeeded_spec
        { s with board := applyMove s.board x y me, lastMove := some (x, y, me),
                 passStreak := 0, turn := some (opponent me), updatedAt := now }
      rcases hs.2.2.2 hf with hfin | hconds
      · have hfin1 : s.status = GameStatus.finished := hfin
        rw [hpl] at hfin1
        exact absurd hfin1 (by simp)
      · unfold FinishCond
        rw [hs.1]
        exact Or.inr hconds
    · obtain ⟨me, hpl, hme, hturn, hleg, ht1⟩ := passHandler_ok_shape _ _ _ _ h
      subst ht1
      by_cases hc : 2 ≤ s.passStreak + 1
      · rw [if_pos hc] at hf ⊢
        unfold FinishCond
        rw [(forceFinish_fields _).2.1]
        exact Or.inl hc
      · rw [if_neg hc] at hf ⊢
        have hs := finishIfNeeded_spec
          { s with turn := some (opponent me), passStreak := s.passStreak + 1, updatedAt := now }
        rcases hs.2.2.2 hf with hfin | hconds
        · have hfin1 : s.status = GameStatus.finished := hfin
          rw [hpl] at hfin1
          exact absurd hfin1 (by simp)
        · unfold FinishCond
          rw [hs.1]
          exact Or.inr hconds
    · obtain ⟨q, hpl, hq, hcase⟩ := aiStepOnce_some_shape _ _ _ _ _ _ h
      rcases hcase with ⟨hleg, ht1⟩ | ⟨m, ht1⟩ <;> subst ht1
      · by_cases hc : 2 ≤ s.passStreak + 1
        · rw [if_pos hc] at hf ⊢
          unfold FinishCond
          rw [(forceFinish_fields _).2.1]
          exact Or.inl hc
        · rw [if_neg hc] at hf ⊢
          have hs := finishIfNeeded_spec
            { s with turn := some (opponent q), passStreak := s.passStreak + 1,
                     updatedAt := now }
          rcases hs.2.2.2 hf with hfin | hconds
          · have hfin1 : s.status = GameStatus.finished := hfin
            rw [hpl] at hfin1
            exact absurd hfin1 (by simp)
          · unfold FinishCond
            rw [hs.1]
            exact Or.inr hconds
      · have hs := finishIfNeeded_spec
          { s with board := applyMove s.board m.1 m.2 q, lastMove := some (m.1, m.2, q),
                   passStreak := 0, turn := some (opponent q), updatedAt := now }
        rcases hs.2.2.2 hf with hfin | hconds
        · have hfin1 : s.status = GameStatus.finished := hfin
          rw [hpl] at hfin1
          exact absurd hfin1 (by simp)
        · unfold FinishCond
          rw [hs.1]
          exact Or.inr hconds
  · intro s token x y now s1 h hfc
    obtain ⟨me, hpl, hme, hturn, hleg, ht1⟩ := moveHandler_ok_shape _ _ _ _ _ _ h
    subst ht1
    have hs := finishIfNeeded_spec
      { s with board := applyMove s.board x y me, lastMove := some (x, y, me),
               passStreak := 0, turn := some (opponent me), updatedAt := now }
    rcases hfc with hps | hconds
    · rw [hs.2.1] at hps
      have hps0 : (2 : Nat) ≤ 0 := hps
      omega
    · rw [hs.1] at hconds
      exact hs.2.2.1 hconds
  · intro s token now s1 h hfc
    obtain ⟨me, hpl, hme, hturn, hleg, ht1⟩ := passHandler_ok_shape _ _ _ _ h
    subst ht1
    by_cases hc : 2 ≤ s.passStreak + 1
    · rw [if_pos hc]
      exact rfl
    · rw [if_neg hc] at hfc ⊢
      have hs := finishIfNeeded_spec
        { s with turn := some (opponent me), passStreak := s.passStreak + 1, updatedAt := now }
      rcases hfc with hp | hconds
      · rw [hs.2.1] at hp
        exact absurd hp hc
      · rw [hs.1] at hconds
        exact hs.2.2.1 hconds
  · intro s meta lv rng now s1 h hfc
    obtain ⟨q, hpl, hq, hcase⟩ := aiStepOnce_some_shape _ _ _ _ _ _ h
    rcases hcase with ⟨hleg, ht1⟩ | ⟨m, ht1⟩ <;> subst ht1
    · by_cases hc : 2 ≤ s.passStreak + 1
      · rw [if_pos hc]
        exact rfl
      · rw [if_neg hc] at hfc ⊢
        have hs := finishIfNeeded_spec
          { s with turn := some (opponent q), passStreak := s.passStreak + 1, updatedAt := now }
        rcases hfc with hp | hconds
        · rw [hs.2.1] at hp
          exact absurd hp hc
        · rw [hs.1] at hconds
          exact hs.2.2.1 hconds
    · have hs := finishIfNeeded_spec
        { s with board := applyMove s.board m.1 m.2 q, lastMove := some (m.1, m.2, q),
                 passStreak := 0, turn := some (opponent q), updatedAt := now }
      rcases hfc with hps | hconds
      · rw [hs.2.1] at hps
        have hps0 : (2 : Nat) ≤ 0 := hps
        omega
      · rw [hs.1] at hconds
        exact hs.2.2.1 hconds

end Wipe
namespace Wipe

set_option maxRecDepth 4000

/-- A plain two-human room configuration without handicap. -/
def plainMeta : RoomMeta :=
  { pve := false, handicapBlack := [], handicapWhite := [],
    humanPlays := none, humanPlaysResolved := none }

/-- Witness for C2: the freshly initialized two-player game is reachable,
playing, and by the invariant its turn is non-null. -/
theorem c2_witness :
    (ensureGameAbsent "r" ["a", "b"] plainMeta 0 true).turn ≠ none := by
  have h := (c2_game_state_machine.1 _ (Reachable.init "r" ["a", "b"] plainMeta 0 true)).2
  exact h (by decide)

/-- A room whose handicap stamps a black disc on every cell. -/
def fullHandicapMeta : RoomMeta :=
  { pve := false, handicapBlack := (List.range 64).map Int.ofNat, handicapWhite := [],
    humanPlays := none, humanPlaysResolved := none }

def fullHandicapInit : GameState := ensureGameAbsent "room" ["a", "b"] fullHandicapMeta 0 true

/-- Counterexample to C2 as stated: a reachable state (the lazy
initialization of a two-player room with a board-filling handicap) whose
board is completely full and where neither player has any legal move, yet
whose status is `playing` with `winner` unset — the finish conditions are
not evaluated on initialization, so finishing is not "exactly when" they
hold. -/
theorem c2_counterexample :
    Reachable fullHandicapInit ∧ fullHandicapInit.status = GameStatus.playing ∧
    isBoardFull fullHandicapInit.board = true ∧
    hasAnyLegalMove fullHandicapInit.board 1 = false ∧
    hasAnyLegalMove fullHandicapInit.board 2 = false ∧
    fullHandicapInit.status ≠ GameStatus.finished ∧ fullHandicapInit.winner = none :=
  ⟨Reachable.init "room" ["a", "b"] fullHandicapMeta 0 true,
    by decide, by decide, by decide, by decide, by decide, by decide⟩

end Wipe
namespace Wipe

theorem foldl_addHandicapIdx_mem (l : List Int) : ∀ (acc : List Int) (i : Int),
    (i ∈ l.foldl addHandicapIdx acc ↔ i ∈ acc ∨ (i ∈ l ∧ 0 ≤ i ∧ i ≤ 63)) := by
  induction l with
  | nil => intro acc i; simp
  | cons a t ih =>
    intro acc i
    rw [List.foldl_cons, ih]
    unfold addHandicapIdx
    by_cases ha : a < 0 ∨ 63 < a
    · rw [if_pos ha]
      simp only [List.mem_cons]
      constructor
      · rintro (h | h)
        · exact Or.inl h
        · exact Or.inr ⟨Or.inr h.1, h.2⟩
      · rintro (h | ⟨rfl | h, hr⟩)
        · exact Or.inl h
        · omega
        · exact Or.inr ⟨h, hr⟩
    · rw [if_neg ha]
      push_neg at ha
      by_cases hmem : a ∈ acc
      · rw [if_pos hmem]
        simp only [List.mem_cons]
        constructor
        · rintro (h | h)
          · exact Or.inl h
          · exact Or.inr ⟨Or.inr h.1, h.2⟩
        · rintro (h | ⟨rfl | h, hr⟩)
          · exact Or.inl h
          · exact Or.inl hmem
          · exact Or.inr ⟨h, hr⟩
      · rw [if_neg hmem]
        simp only [List.mem_append, List.mem_cons, List.mem_singleton, List.not_mem_nil,
          or_false]
        constructor
        · rintro ((h | rfl) | h)
          · exact Or.inl h
          · exact Or.inr ⟨Or.inl rfl, by omega⟩
          · exact Or.inr ⟨Or.inr h.1, h.2⟩
        · rintro (h | ⟨rfl | h, hr⟩)
          · exact Or.inl (Or.inl h)
          · exact Or.inl (Or.inr rfl)
          · exact Or.inr ⟨h, hr⟩

theorem foldl_whiteIdx_mem (black : List Int) (l : List Int) : ∀ (acc : List Int) (i : Int),
    (i ∈ l.foldl (fun s i =>
        if i < 0 ∨ 63 < i then s else if i ∈ black then s
        else if i ∈ s then s else s ++ [i]) acc ↔
      i ∈ acc ∨ (i ∈ l ∧ 0 ≤ i ∧ i ≤ 63 ∧ i ∉ black)) := by
  induction l with
  | nil => intro acc i; simp
  | cons a t ih =>
    intro acc i
    rw [List.foldl_cons, ih]
    by_cases ha : a < 0 ∨ 63 < a
    · rw [if_pos ha]
      simp only [List.mem_cons]
      constructor
      · rintro (h | h)
        · exact Or.inl h
        · exact Or.inr ⟨Or.inr h.1, h.2⟩
      · rintro (h | ⟨rfl | h, hr⟩)
        · exact Or.inl h
        · omega
        · exact Or.inr ⟨h, hr⟩
    · rw [if_neg ha]
      push_neg at ha
      by_cases hb : a ∈ black
      · rw [if_pos hb]
        simp only [List.mem_cons]
        constructor
        · rintro (h | h)
          · exact Or.inl h
          · exact Or.inr ⟨Or.inr h.1, h.2⟩
        · rintro (h | ⟨rfl | h, hr⟩)
          · exact Or.inl h
          · exact absurd hb hr.2.2
          · exact Or.inr ⟨h, hr⟩
      · by_cases hmem : a ∈ acc
        · rw [if_neg hb, if_pos hmem]
          simp only [List.mem_cons]
          constructor
          · rintro (h | h)
            · exact Or.inl h
            · exact Or.inr ⟨Or.inr h.1, h.2⟩
          · rintro (h | ⟨rfl | h, hr⟩)
            · exact Or.inl h
            · exact Or.inl hmem
            · exact Or.inr ⟨h, hr⟩
        · rw [if_neg hb, if_neg hmem]
          simp only [List.mem_append, List.mem_cons, List.mem_singleton, List.not_mem_nil,
            or_false]
          constructor
          · rintro ((h | rfl) | h)
            · exact Or.inl h
            · exact Or.inr ⟨Or.inl rfl, by omega, by omega, hb⟩
            · exact Or.inr ⟨Or.inr h.1, h.2⟩
          · rintro (h | ⟨rfl | h, hr⟩)
            · exact Or.inl (Or.inl h)
            · exact Or.inl (Or.inr rfl)
            · exact Or.inr ⟨h, hr⟩

/-- Membership in the sanitized black handicap list. -/
theorem sanitizeHandicap_black_mem (meta : RoomMeta) (i : Int) :
    i ∈ (sanitizeHandicap meta).1 ↔ i ∈ meta.handicapBlack ∧ 0 ≤ i ∧ i ≤ 63 := by
  unfold sanitizeHandicap
  rw [foldl_addHandicapIdx_mem]
  simp

/-- Membership in the sanitized white handicap list: in range, requested
white, and not already requested black. -/
theorem sanitizeHandicap_white_mem (meta : RoomMeta) (i : Int) :
    i ∈ (sanitizeHandicap meta).2 ↔
      i ∈ meta.handicapWhite ∧ 0 ≤ i ∧ i ≤ 63 ∧ i ∉ (sanitizeHandicap meta).1 := by
  unfold sanitizeHandicap
  rw [foldl_whiteIdx_mem]
  simp

end Wipe
namespace Wipe

/-- Reading back after stamping value `v ≠ 0` onto the empty in-range cells
listed in `l`. -/
theorem foldl_stamp_getD (v : Nat) (hv : v ≠ 0) (l : List Int) : ∀ (b : List Nat) (j : Nat),
    b.length = 64 → j < 64 →
    ((l.foldl (fun b i =>
        if i < 0 ∨ 63 < i then b
        else if b.getD i.toNat 0 = 0 then b.set i.toNat v else b) b).getD j 0 =
      if (j : Int) ∈ l ∧ b.getD j 0 = 0 then v else b.getD j 0) ∧
    (l.foldl (fun b i =>
        if i < 0 ∨ 63 < i then b
        else if b.getD i.toNat 0 = 0 then b.set i.toNat v else b) b).length = 64 := by
  induction l with
  | nil =>
    intro b j hb hj
    simp only [List.foldl_nil, List.not_mem_nil, false_and, if_false]
    exact ⟨trivial, hb⟩
  | cons a t ih =>
    intro b j hb hj
    rw [List.foldl_cons]
    have hlen1 : (if a < 0 ∨ 63 < a then b
        else if b.getD a.toNat 0 = 0 then b.set a.toNat v else b).length = 64 := by
      split
      · exact hb
      · split
        · rw [List.length_set]; exact hb
        · exact hb
    have h1 := ih _ j hlen1 hj
    refine ⟨?_, h1.2⟩
    rw [h1.1]
    have hb' : (if a < 0 ∨ 63 < a then b
        else if b.getD a.toNat 0 = 0 then b.set a.toNat v else b).getD j 0 =
        if (j : Int) = a ∧ b.getD j 0 = 0 then v else b.getD j 0 := by
      by_cases ha : a < 0 ∨ 63 < a
      · rw [if_pos ha, if_neg (by rintro ⟨h1, -⟩; omega)]
      · rw [if_neg ha]
        push_neg at ha
        by_cases he : b.getD a.toNat 0 = 0
        · rw [if_pos he]
          by_cases hja : j = a.toNat
          · subst hja
            rw [List.getD_eq_getElem?_getD, List.getElem?_set_eq_of_lt v (by omega),
              if_pos ⟨by omega, he⟩]
            rfl
          · rw [List.getD_eq_getElem?_getD, List.getElem?_set_ne (by omega),
              ← List.getD_eq_getElem?_getD, if_neg (by rintro ⟨h1, -⟩; omega)]
        · rw [if_neg he, if_neg (by
            rintro ⟨h1, h2⟩
            have : j = a.toNat := by omega
            rw [this] at h2
            exact he h2)]
    rw [hb']
    by_cases hja : (j : Int) = a ∧ b.getD j 0 = 0
    · rw [if_pos hja, if_neg (by rintro ⟨-, h⟩; exact hv h),
        if_pos ⟨by rw [hja.1]; exact List.mem_cons_self a t, hja.2⟩]
    · rw [if_neg hja]
      by_cases hc : (j : Int) ∈ t ∧ b.getD j 0 = 0
      · rw [if_pos hc, if_pos ⟨List.mem_cons_of_mem a hc.1, hc.2⟩]
      · rw [if_neg hc, if_neg (by
          rintro ⟨hmem, hb0⟩
          rcases List.mem_cons.mp hmem with h | h
          · exact hja ⟨h, hb0⟩
          · exact hc ⟨h, hb0⟩)]

end Wipe
namespace Wipe

/-- Cell values after applying a handicap pair to a 64-cell board: black
cells stamp empty cells first, then white cells stamp the cells still
empty. -/
theorem applyHandicap_getD (board : List Nat) (hc : List Int × List Int)
    (hb : board.length = 64) (j : Nat) (hj : j < 64) :
    (applyHandicap board hc).getD j 0 =
      (if board.getD j 0 = 0 then
        (if (j : Int) ∈ hc.1 then 1 else if (j : Int) ∈ hc.2 then 2 else 0)
       else board.getD j 0) ∧
    (applyHandicap board hc).length = 64 := by
  unfold applyHandicap
  have h1 := foldl_stamp_getD 1 (by omega) hc.1 board j hb hj
  have h2 := foldl_stamp_getD 2 (by omega) hc.2 _ j h1.2 hj
  refine ⟨?_, h2.2⟩
  rw [h2.1, h1.1]
  by_cases hbe : board.getD j 0 = 0
  · rw [if_pos hbe]
    by_cases hA : (j : Int) ∈ hc.1
    · have hin : (if (j : Int) ∈ hc.1 ∧ board.getD j 0 = 0 then (1 : Nat)
          else board.getD j 0) = 1 := if_pos ⟨hA, hbe⟩
      rw [hin, if_neg (by rintro ⟨-, h⟩; exact one_ne_zero h), if_pos hA]
    · have hin : (if (j : Int) ∈ hc.1 ∧ board.getD j 0 = 0 then (1 : Nat)
          else board.getD j 0) = board.getD j 0 := if_neg (by rintro ⟨h, -⟩; exact hA h)
      rw [hin, if_neg hA, hbe]
      by_cases hW : (j : Int) ∈ hc.2
      · rw [if_pos ⟨hW, rfl⟩, if_pos hW]
      · rw [if_neg (by rintro ⟨h, -⟩; exact hW h), if_neg hW]
  · have hin : (if (j : Int) ∈ hc.1 ∧ board.getD j 0 = 0 then (1 : Nat)
        else board.getD j 0) = board.getD j 0 := if_neg (by rintro ⟨-, h⟩; exact hbe h)
    rw [hin, if_neg (by rintro ⟨-, h⟩; exact hbe h), if_neg hbe]

theorem ensureGameAbsent_board (roomId : String) (players : List String) (meta : RoomMeta)
    (now : Nat) (flip : Bool) :
    (ensureGameAbsent roomId players meta now flip).board =
      applyHandicap createInitialBoard (sanitizeHandicap meta) := by
  unfold ensureGameAbsent
  split
  · split
    · rw [(assignAiOpponent_fields _ _ _).1]
    · rfl
  · split
    · rfl
    · rfl

end Wipe
namespace Wipe

/-- C7: when a game is first initialized, the board is the standard 4-disc
start with sanitized handicap cells stamped only onto empty cells, black
before white (an index requested for both colors gets a black disc), the
4 fixed starting discs are never overwritten, and a game that starts
playing always starts with player 1's turn. -/
theorem c7_initial_setup (roomId : String) (players : List String) (meta : RoomMeta)
    (now : Nat) (flip : Bool) :
    ((ensureGameAbsent roomId players meta now flip).board.length = 64) ∧
    (∀ j : Nat, j < 64 →
      (ensureGameAbsent roomId players meta now flip).board.getD j 0 =
        (if createInitialBoard.getD j 0 = 0 then
          (if (j : Int) ∈ (sanitizeHandicap meta).1 then 1
           else if (j : Int) ∈ (sanitizeHandicap meta).2 then 2 else 0)
         else createInitialBoard.getD j 0)) ∧
    ((ensureGameAbsent roomId players meta now flip).board.getD 27 0 = 2 ∧
     (ensureGameAbsent roomId players meta now flip).board.getD 28 0 = 1 ∧
     (ensureGameAbsent roomId players meta now flip).board.getD 35 0 = 1 ∧
     (ensureGameAbsent roomId players meta now flip).board.getD 36 0 = 2) ∧
    (∀ i : Int, i ∈ (sanitizeHandicap meta).1 ↔
      i ∈ meta.handicapBlack ∧ 0 ≤ i ∧ i ≤ 63) ∧
    (∀ i : Int, i ∈ (sanitizeHandicap meta).2 ↔
      i ∈ meta.handicapWhite ∧ 0 ≤ i ∧ i ≤ 63 ∧ i ∉ (sanitizeHandicap meta).1) ∧
    (∀ j : Nat, j < 64 → (j : Int) ∈ meta.handicapBlack → (j : Int) ∈ meta.handicapWhite →
      createInitialBoard.getD j 0 = 0 →
      (ensureGameAbsent roomId players meta now flip).board.getD j 0 = 1) ∧
    ((ensureGameAbsent roomId players meta now flip).status = GameStatus.playing →
      (ensureGameAbsent roomId players meta now flip).turn = some 1) ∧
    (∀ s0 : GameState, s0.status = GameStatus.waiting →
      (ensureGamePresent s0 players meta now flip).status = GameStatus.playing →
      (ensureGamePresent s0 players meta now flip).turn = some 1) := by
  have hboard := ensureGameAbsent_board roomId players meta now flip
  have hbase : createInitialBoard.length = 64 := by decide
  have hch : ∀ j : Nat, j < 64 →
      (ensureGameAbsent roomId players meta now flip).board.getD j 0 =
        (if createInitialBoard.getD j 0 = 0 then
          (if (j : Int) ∈ (sanitizeHandicap meta).1 then 1
           else if (j : Int) ∈ (sanitizeHandicap meta).2 then 2 else 0)
         else createInitialBoard.getD j 0) := by
    intro j hj
    rw [hboard]
    exact (applyHandicap_getD createInitialBoard (sanitizeHandicap meta) hbase j hj).1
  refine ⟨?_, hch, ⟨?_, ?_, ?_, ?_⟩, sanitizeHandicap_black_mem meta, sanitizeHandicap_white_mem meta,
    ?_, ?_, ?_⟩
  · rw [hboard]
    exact (applyHandicap_getD createInitialBoard (sanitizeHandicap meta) hbase 0 (by omega)).2
  · rw [hch 27 (by omega), if_neg (by decide)]
    decide
  · rw [hch 28 (by omega), if_neg (by decide)]
    decide
  · rw [hch 35 (by omega), if_neg (by decide)]
    decide
  · rw [hch 36 (by omega), if_neg (by decide)]
    decide
  · intro j hj hbl hwh he
    rw [hch j hj, if_pos he,
      if_pos ((sanitizeHandicap_black_mem meta (j : Int)).mpr ⟨hbl, by omega, by omega⟩)]
  · unfold ensureGameAbsent
    split
    · split
      · intro _
        rw [(assignAiOpponent_fields _ _ _).2.2.1]
      · intro h
        exact absurd h (by simp)
    · split
      · intro _
        rfl
      · intro h
        exact absurd h (by simp)
  · intro s0 hw
    have hfs := fillSlotsFromPlayers_fields players s0
    simp only [ensureGamePresent]
    split
    · split
      · split
        · intro _
          rw [(assignAiOpponent_fields _ _ _).2.2.1]
        · intro h
          exact absurd h (by rw [hfs.2.1, hw]; simp)
      · intro h
        exact absurd h (by rw [hfs.2.1, hw]; simp)
    · split
      · intro _
        rfl
      · intro h
        exact absurd h (by rw [hfs.2.1, hw]; simp)

end Wipe
namespace Wipe

/-- A handicap configuration requesting cell 10 for both colors. -/
def overlapMeta : RoomMeta :=
  { pve := false, handicapBlack := [0, 10], handicapWhite := [10, 5],
    humanPlays := none, humanPlaysResolved := none }

/-- Witness for C7: with overlapping handicap requests, cell 10 gets a black
disc, cell 5 a white disc, the starting disc at 27 is untouched, and the
game starts with player 1's turn. -/
theorem c7_witness :
    (ensureGameAbsent "r" ["a", "b"] overlapMeta 0 true).board.getD 10 0 = 1 ∧
    (ensureGameAbsent "r" ["a", "b"] overlapMeta 0 true).board.getD 5 0 = 2 ∧
    (ensureGameAbsent "r" ["a", "b"] overlapMeta 0 true).board.getD 27 0 = 2 ∧
    (ensureGameAbsent "r" ["a", "b"] overlapMeta 0 true).turn = some 1 := by
  have h := c7_initial_setup "r" ["a", "b"] overlapMeta 0 true
  refine ⟨h.2.2.2.2.2.1 10 (by omega) (by decide) (by decide) (by decide), ?_,
    h.2.2.1.1, h.2.2.2.2.2.2.1 (by decide)⟩
  rw [h.2.1 5 (by omega)]
  decide

/-! ### Shallow embedding of the invite-code logic
(`src/server/keys.ts` and `src/server/rooms.ts`) -/

def INVITE_CODE_LENGTH : Nat := 6

def INVITE_ALPHABET : String := "0123456789ABCDEFGHIJKLMNOPQRSTUVWXYZ"

/-- `normalizeInviteCode(code)`: `code.trim().toUpperCase()`, expressed
over the character list (drop whitespace at both ends, upper-case each
character). -/
def normalizeInviteCode (code : String) : String :=
  String.mk ((((code.toList.dropWhile (fun c => c.isWhitespace)).reverse.dropWhile
    (fun c => c.isWhitespace)).reverse).map (fun c => c.toUpper))

/-- `isInviteCodeFormat(code)`: the regex `^[0-9A-Z]{6}$`. -/
def isInviteCodeFormat (code : String) : Bool :=
  code.length = 6 &&
    code.toList.all (fun c => ('0' ≤ c ∧ c ≤ '9') ∨ ('A' ≤ c ∧ c ≤ 'Z'))

/-- Modelled from the spec: `nanoid`'s `customAlphabet(INVITE_ALPHABET,
INVITE_CODE_LENGTH)` (the library itself is not part of the sources)
issues a code of `INVITE_CODE_LENGTH` symbols each drawn from
`INVITE_ALPHABET`; the random source is the parameter `rand`. -/
def makeInviteCode (rand : Nat → Nat) : String :=
  String.mk ((List.range INVITE_CODE_LENGTH).map
    (fun i => INVITE_ALPHABET.toList.getD (rand i % INVITE_ALPHABET.length) '0'))

inductive ResolveResult where
  | ok (roomId : String)
  | invalidFormat
  | codeNotFound
  | roomNotFound
  | roomFull
deriving DecidableEq, Repr

/-- The store reads performed by the `GET /room/resolve` handler: the
invite-code mapping and, per room, the `connected` list of its meta hash
(`none` = room meta missing). -/
structure RoomsStore where
  invite : String → Option String
  metaConnected : String → Option (List String)

/-- The `GET /room/resolve` handler of `src/server/rooms.ts`. -/
def resolveCode (store : RoomsStore) (input : String) : ResolveResult :=
  let code := normalizeInviteCode input
  if isInviteCodeFormat code = false then ResolveResult.invalidFormat
  else
    match store.invite code with
    | none => ResolveResult.codeNotFound
    | some roomId =>
      match store.metaConnected roomId with
      | none => ResolveResult.roomNotFound
      | some connected =>
        if 2 ≤ connected.length then ResolveResult.roomFull
        else ResolveResult.ok roomId

end Wipe
namespace Wipe

/-- A store that maps the (normalized) code `ABC123` to a room with free
seats. -/
def storeWithCode : RoomsStore :=
  { invite := fun c => if c = "ABC123" then some "room1" else none,
    metaConnected := fun r => if r = "room1" then some [] else none }

/-- Counterexample to C6 as stated: the invite alphabet has 36 symbols, not
37; and the raw input `"abc123"` does not match the 6-character
alphanumeric format, yet `resolveCode` does not reject it — it normalizes
first, consults the store, and resolves the room. -/
theorem c6_counterexample :
    INVITE_ALPHABET.length = 36 ∧ ¬ INVITE_ALPHABET.length = 37 ∧
    isInviteCodeFormat "abc123" = false ∧
    resolveCode storeWithCode "abc123" = ResolveResult.ok "room1" := by
  refine ⟨by decide, by decide, by decide, by decide⟩

/-- C6 (amended): every issued invite code is 6 characters long over the
36-symbol alphabet `0-9A-Z`, and `resolveCode` rejects any input whose
trimmed upper-cased normalization fails the 6-character alphanumeric
format with the typed invalid-format error, consulting no store state (the
result is identical for every store). -/
theorem c6_invite_codes (rand : Nat → Nat) (input : String) :
    ((makeInviteCode rand).length = 6 ∧
      ∀ c ∈ (makeInviteCode rand).toList, c ∈ INVITE_ALPHABET.toList) ∧
    INVITE_ALPHABET.length = 36 ∧
    (isInviteCodeFormat (normalizeInviteCode input) = false →
      ∀ store store1 : RoomsStore,
        resolveCode store input = ResolveResult.invalidFormat ∧
        resolveCode store input = resolveCode store1 input) := by
  refine ⟨⟨?_, ?_⟩, by decide, ?_⟩
  · show ((List.range INVITE_CODE_LENGTH).map
      (fun i => INVITE_ALPHABET.toList.getD (rand i % INVITE_ALPHABET.length) '0')).length = 6
    rw [List.length_map, List.length_range]
    rfl
  · intro c hc
    have hc2 : c ∈ (List.range INVITE_CODE_LENGTH).map
        (fun i => INVITE_ALPHABET.toList.getD (rand i % INVITE_ALPHABET.length) '0') := hc
    rw [List.mem_map] at hc2
    obtain ⟨i, -, rfl⟩ := hc2
    have hlt : rand i % INVITE_ALPHABET.length < INVITE_ALPHABET.toList.length := by
      have : INVITE_ALPHABET.toList.length = 36 := by decide
      rw [this]
      exact Nat.mod_lt _ (by decide)
    rw [List.getD_eq_getElem _ '0' hlt]
    exact List.getElem_mem hlt
  · intro hbad store store1
    constructor
    · unfold resolveCode
      rw [if_pos hbad]
    · unfold resolveCode
      rw [if_pos hbad, if_pos hbad]

/-- Witness for C6 (amended): a lower-case padded input normalizes to a
well-formed code and two different stores agree on rejecting a malformed
input. -/
theorem c6_witness :
    resolveCode storeWithCode "zz" = ResolveResult.invalidFormat ∧
    (makeInviteCode (fun _ => 7)).length = 6 := by
  exact ⟨((c6_invite_codes (fun _ => 7) "zz").2.2 (by decide) storeWithCode storeWithCode).1,
    (c6_invite_codes (fun _ => 7) "zz").1.1⟩

end Wipe
namespace Wipe

/-- `applyMove` preserves the board length. -/
theorem applyMove_length (board : List Nat) (x y : Int) (p : Nat) :
    (applyMove board x y p).length = board.length := by
  by_cases h : (getFlips board x y p).length = 0
  · simp [applyMove, h]
  · simp only [applyMove, if_neg h]
    rw [foldl_set_length, List.length_set]

/-- A fold whose step moves by at most one stays within the list length of
its start. -/
theorem foldl_drift_bound (f : Int → Nat → Int) (hf : ∀ s i, s - 1 ≤ f s i ∧ f s i ≤ s + 1) :
    ∀ (l : List Nat) (acc : Int),
      acc - l.length ≤ l.foldl f acc ∧ l.foldl f acc ≤ acc + l.length := by
  intro l
  induction l with
  | nil => intro acc; simp
  | cons a t ih =>
    intro acc
    rw [List.foldl_cons]
    have h1 := hf acc a
    have h2 := ih (f acc a)
    constructor
    · have := h2.1
      simp only [List.length_cons]
      push_cast
      omega
    · have := h2.2
      simp only [List.length_cons]
      push_cast
      omega

/-- `getLegalMoves` returns at most 64 moves. -/
theorem getLegalMoves_length_le (board : List Nat) (p : Nat) :
    (getLegalMoves board p).length ≤ 64 := by
  have h := List.length_filter_le (fun m => isLegalMove board m.1 m.2 p) allCoords
  have h2 : allCoords.length = 64 := by decide
  unfold getLegalMoves
  omega

/-- The evaluation score is bounded by 1088 on 64-cell boards. -/
theorem evalBoard_bound (board : List Nat) (me : Nat) (hb : board.length = 64) :
    -1088 ≤ evalBoard board me ∧ evalBoard board me ≤ 1088 := by
  unfold evalBoard
  have hc1 : (countDiscs board).1 ≤ 64 := by
    unfold countDiscs
    simpa [hb] using List.countP_le_length (p := fun d => decide (d = 1)) (l := board)
  have hc2 : (countDiscs board).2 ≤ 64 := by
    unfold countDiscs
    simpa [hb] using List.countP_le_length (p := fun d => decide (d = 2)) (l := board)
  have hm1 := getLegalMoves_length_le board me
  have hm2 := getLegalMoves_length_le board (opponent me)
  have hcorner := foldl_drift_bound
    (fun s i => if cellN board i = me then s + 1
                else if cellN board i = opponent me then s - 1 else s)
    (by intro s i; dsimp only; constructor <;> (split <;> [omega; (split <;> omega)])) CORNERS 0
  have hdx := foldl_drift_bound
    (fun s i => if cellN board i = me then s - 1
                else if cellN board i = opponent me then s + 1 else s)
    (by intro s i; dsimp only; constructor <;> (split <;> [omega; (split <;> omega)])) X_SQUARES 0
  have hdc := foldl_drift_bound
    (fun s i => if cellN board i = me then s - 1
                else if cellN board i = opponent me then s + 1 else s)
    (by intro s i; dsimp only; constructor <;> (split <;> [omega; (split <;> omega)]))
    C_SQUARES
    (X_SQUARES.foldl
      (fun s i => if cellN board i = me then s - 1
                  else if cellN board i = opponent me then s + 1 else s) 0)
  have hl4 : (CORNERS : List Nat).length = 4 := by decide
  have hl41 : (X_SQUARES : List Nat).length = 4 := by decide
  have hl8 : (C_SQUARES : List Nat).length = 8 := by decide
  rw [hl4] at hcorner
  rw [hl41] at hdx
  rw [hl8] at hdc
  push_cast at hcorner hdx hdc
  have hm1i : ((getLegalMoves board me).length : Int) ≤ 64 := by exact_mod_cast hm1
  have hm2i : ((getLegalMoves board (opponent me)).length : Int) ≤ 64 := by exact_mod_cast hm2
  have hm1n : (0 : Int) ≤ ((getLegalMoves board me).length : Int) := Int.natCast_nonneg _
  have hm2n : (0 : Int) ≤ ((getLegalMoves board (opponent me)).length : Int) :=
    Int.natCast_nonneg _
  have hc1i : (((countDiscs board).1 : Nat) : Int) ≤ 64 := by exact_mod_cast hc1
  have hc2i : (((countDiscs board).2 : Nat) : Int) ≤ 64 := by exact_mod_cast hc2
  have hc1n : (0 : Int) ≤ (((countDiscs board).1 : Nat) : Int) := Int.natCast_nonneg _
  have hc2n : (0 : Int) ≤ (((countDiscs board).2 : Nat) : Int) := Int.natCast_nonneg _
  dsimp only
  constructor <;>
    (by_cases hme : me = 1 <;>
      by_cases hph : (countDiscs board).1 + (countDiscs board).2 < 44 <;>
      first
        | (rw [if_pos hph, if_pos hph, if_pos hme]
           linarith [hcorner.1, hcorner.2, hdx.1, hdx.2, hdc.1, hdc.2])
        | (rw [if_pos hph, if_pos hph, if_neg hme]
           linarith [hcorner.1, hcorner.2, hdx.1, hdx.2, hdc.1, hdc.2])
        | (rw [if_neg hph, if_neg hph, if_pos hme]
           linarith [hcorner.1, hcorner.2, hdx.1, hdx.2, hdc.1, hdc.2])
        | (rw [if_neg hph, if_neg hph, if_neg hme]
           linarith [hcorner.1, hcorner.2, hdx.1, hdx.2, hdc.1, hdc.2]))

end Wipe
namespace Wipe

theorem npMaxF_ge_init (g : List Nat → Int) (board : List Nat) (toMove : Nat) :
    ∀ (moves : List (Int × Int)) (init : Int),
      init ≤ npMaxF g board toMove moves init := by
  intro moves
  induction moves with
  | nil => intro init; exact le_refl _
  | cons m rest ih =>
    intro init
    rw [npMaxF]
    refine le_trans ?_ (ih _)
    split <;> omega

theorem npMinF_le_init (g : List Nat → Int) (board : List Nat) (toMove : Nat) :
    ∀ (moves : List (Int × Int)) (init : Int),
      npMinF g board toMove moves init ≤ init := by
  intro moves
  induction moves with
  | nil => intro init; exact le_refl _
  | cons m rest ih =>
    intro init
    rw [npMinF]
    refine le_trans (ih _) ?_
    split <;> omega

theorem npMaxF_max (g : List Nat → Int) (board : List Nat) (toMove : Nat) :
    ∀ (moves : List (Int × Int)) (a b : Int),
      npMaxF g board toMove moves (max a b) = max (npMaxF g board toMove moves a) b := by
  intro moves
  induction moves with
  | nil => intro a b; rfl
  | cons m rest ih =>
    intro a b
    rw [npMaxF, npMaxF]
    rw [show (if max a b < g (applyMove board m.1 m.2 toMove) then
          g (applyMove board m.1 m.2 toMove) else max a b) =
        max (if a < g (applyMove board m.1 m.2 toMove) then
          g (applyMove board m.1 m.2 toMove) else a) b from by split <;> split <;> omega]
    exact ih _ b

theorem npMinF_min (g : List Nat → Int) (board : List Nat) (toMove : Nat) :
    ∀ (moves : List (Int × Int)) (a b : Int),
      npMinF g board toMove moves (min a b) = min (npMinF g board toMove moves a) b := by
  intro moves
  induction moves with
  | nil => intro a b; rfl
  | cons m rest ih =>
    intro a b
    rw [npMinF, npMinF]
    rw [show (if g (applyMove board m.1 m.2 toMove) < min a b then
          g (applyMove board m.1 m.2 toMove) else min a b) =
        min (if g (applyMove board m.1 m.2 toMove) < a then
          g (applyMove board m.1 m.2 toMove) else a) b from by split <;> split <;> omega]
    exact ih _ b

theorem npMaxF_le (g : List Nat → Int) (board : List Nat) (toMove : Nat) (hi : Int) :
    ∀ (moves : List (Int × Int)) (init : Int), init ≤ hi →
      (∀ m ∈ moves, g (applyMove board m.1 m.2 toMove) ≤ hi) →
      npMaxF g board toMove moves init ≤ hi := by
  intro moves
  induction moves with
  | nil => intro init h _; exact h
  | cons m rest ih =>
    intro init h hg
    rw [npMaxF]
    refine ih _ ?_ (fun m1 hm1 => hg m1 (List.mem_cons_of_mem m hm1))
    have := hg m (List.mem_cons_self m rest)
    split <;> omega

theorem npMinF_ge (g : List Nat → Int) (board : List Nat) (toMove : Nat) (lo : Int) :
    ∀ (moves : List (Int × Int)) (init : Int), lo ≤ init →
      (∀ m ∈ moves, lo ≤ g (applyMove board m.1 m.2 toMove)) →
      lo ≤ npMinF g board toMove moves init := by
  intro moves
  induction moves with
  | nil => intro init h _; exact h
  | cons m rest ih =>
    intro init h hg
    rw [npMinF]
    refine ih _ ?_ (fun m1 hm1 => hg m1 (List.mem_cons_of_mem m hm1))
    have := hg m (List.mem_cons_self m rest)
    split <;> omega

/-- The unpruned search value is itself a bounded evaluation. -/
theorem minimaxNP_bound : ∀ (depth : Nat) (board : List Nat) (toMove me : Nat),
    board.length = 64 →
    -1088 ≤ minimaxNP depth board toMove me ∧ minimaxNP depth board toMove me ≤ 1088 := by
  intro depth
  induction depth with
  | zero =>
    intro b t m hb
    rw [minimaxNP]
    split
    · exact evalBoard_bound b m hb
    · exact evalBoard_bound b m hb
  | succ d ih =>
    intro b t m hb
    rw [minimaxNP]
    split
    · exact evalBoard_bound b m hb
    · dsimp only
      by_cases hmv : getLegalMoves b t = []
      · rw [if_pos hmv]
        exact ih b (opponent t) m hb
      · rw [if_neg hmv]
        have hchild : ∀ m1 ∈ getLegalMoves b t,
            -1088 ≤ minimaxNP d (applyMove b m1.1 m1.2 t) (opponent t) m ∧
            minimaxNP d (applyMove b m1.1 m1.2 t) (opponent t) m ≤ 1088 := by
          intro m1 _
          exact ih _ _ _ (by rw [applyMove_length]; exact hb)
        obtain ⟨m0, rest, hmv0⟩ : ∃ m0 rest, getLegalMoves b t = m0 :: rest := by
          cases hx : getLegalMoves b t with
          | nil => exact absurd hx hmv
          | cons m0 rest => exact ⟨m0, rest, rfl⟩
        split
        · -- maximizing
          rw [hmv0]
          constructor
          · rw [npMaxF]
            have h0 := (hchild m0 (by rw [hmv0]; exact List.mem_cons_self m0 rest)).1
            refine le_trans ?_ (npMaxF_ge_init _ b t rest _)
            split <;> [omega; omega]
          · refine npMaxF_le _ b t 1088 _ NEG_INF (by unfold NEG_INF; omega) ?_
            intro m1 hm1
            exact (hchild m1 (by rw [hmv0]; exact hm1)).2
        · -- minimizing
          rw [hmv0]
          constructor
          · refine npMinF_ge _ b t (-1088) _ POS_INF (by unfold POS_INF; omega) ?_
            intro m1 hm1
            exact (hchild m1 (by rw [hmv0]; exact hm1)).1
          · rw [npMinF]
            have h0 := (hchild m0 (by rw [hmv0]; exact List.mem_cons_self m0 rest)).2
            refine le_trans (npMinF_le_init _ b t rest _) ?_
            split <;> [omega; omega]

end Wipe
namespace Wipe

/-- The Knuth-Moore window relation between a pruned result `r` and the
true (unpruned) value `v` for the window `(alpha, beta)`: exact inside the
window, and a matching bound when the true value falls outside it. -/
def KMrel (r v alpha beta : Int) : Prop :=
  (alpha < v ∧ v < beta → r = v) ∧ (v ≤ alpha → v ≤ r ∧ r ≤ alpha) ∧
  (beta ≤ v → beta ≤ r ∧ r ≤ v)

theorem KMrel_mk (r v alpha beta : Int)
    (h1 : alpha < v ∧ v < beta → r = v) (h2 : v ≤ alpha → v ≤ r ∧ r ≤ alpha)
    (h3 : beta ≤ v → beta ≤ r ∧ r ≤ v) : KMrel r v alpha beta := ⟨h1, h2, h3⟩

/-- The pruned maximizing loop satisfies the Knuth-Moore relation against
the unpruned maximum whenever every child call does. -/
theorem abMaxF_spec (f : List Nat → Int → Int → Int) (g : List Nat → Int)
    (board : List Nat) (toMove : Nat) :
    ∀ (moves : List (Int × Int)),
      (∀ m ∈ moves, ∀ alpha beta : Int, alpha < beta → NEG_INF ≤ alpha → beta ≤ POS_INF →
        KMrel (f (applyMove board m.1 m.2 toMove) alpha beta)
              (g (applyMove board m.1 m.2 toMove)) alpha beta) →
      ∀ alpha beta best : Int, alpha < beta → NEG_INF ≤ alpha → beta ≤ POS_INF →
        best ≤ alpha →
        KMrel (abMaxF f board toMove moves alpha beta best)
              (npMaxF g board toMove moves best) alpha beta := by
  intro moves
  induction moves with
  | nil =>
    intro _ alpha beta best hab hna hbp hba
    rw [abMaxF, npMaxF]
    exact KMrel_mk _ _ _ _ (fun _ => rfl) (fun _ => ⟨le_refl _, hba⟩) (fun h => ⟨h, le_refl _⟩)
  | cons m rest ih =>
    intro hf alpha beta best hab hna hbp hba
    rw [abMaxF, npMaxF]
    obtain ⟨hc1, hc2, hc3⟩ :=
      hf m (List.mem_cons_self m rest) alpha beta hab hna hbp
    set c := f (applyMove board m.1 m.2 toMove) alpha beta with hcdef
    set w := g (applyMove board m.1 m.2 toMove) with hwdef
    by_cases hcut : beta ≤ (if alpha < c then c else alpha)
    · rw [if_pos hcut]
      have hbc : beta ≤ c := by
        by_cases h : alpha < c
        · rw [if_pos h] at hcut; exact hcut
        · rw [if_neg h] at hcut; omega
      have hbw : beta ≤ w := by
        rcases lt_trichotomy w beta with h | h | h
        · rcases le_or_lt w alpha with h2 | h2
          · have := (hc2 h2).2; omega
          · have := hc1 ⟨h2, h⟩; omega
        · omega
        · omega
      have hcw := hc3 hbw
      rw [if_pos (by omega : best < c), if_pos (by omega : best < w)]
      have hM := npMaxF_ge_init g board toMove rest w
      refine KMrel_mk _ _ _ _ (fun h => ?_) (fun h => ?_) (fun h => ?_)
      · omega
      · omega
      · exact ⟨by omega, by omega⟩
    · rw [if_neg hcut]
      have ha1lt : (if alpha < c then c else alpha) < beta := not_le.mp hcut
      have hb1le : (if best < c then c else best) ≤ (if alpha < c then c else alpha) := by
        by_cases h : alpha < c
        · rw [if_pos h]; split <;> omega
        · rw [if_neg h]; split <;> omega
      have hna1 : NEG_INF ≤ (if alpha < c then c else alpha) := by split <;> omega
      have hr := ih (fun m1 hm1 => hf m1 (List.mem_cons_of_mem _ hm1)) _ beta _
        ha1lt hna1 hbp hb1le
      have hbw1eq : (if best < w then w else best) = max best w := by split <;> omega
      have hMc : npMaxF g board toMove rest (if best < c then c else best) =
          max (npMaxF g board toMove rest best) c := by
        rw [show (if best < c then c else best) = max best c from by split <;> omega,
          npMaxF_max]
      rw [hMc] at hr
      rw [hbw1eq, npMaxF_max]
      set R := npMaxF g board toMove rest best with hRdef
      obtain ⟨hr1, hr2, hr3⟩ := hr
      have ha1eq : (if alpha < c then c else alpha) = max alpha c := by split <;> omega
      rcases le_or_lt w alpha with hwa | hwa
      · obtain ⟨hwc, hca⟩ := hc2 hwa
        refine KMrel_mk _ _ _ _ (fun h => ?_) (fun h => ?_) (fun h => ?_)
        · have h1 := hr1 (by omega)
          omega
        · have h2 := hr2 (by omega)
          omega
        · have h3 := hr3 (by omega)
          omega
      · rcases lt_or_le w beta with hwb | hwb
        · have hcw : c = w := hc1 ⟨hwa, hwb⟩
          refine KMrel_mk _ _ _ _ (fun h => ?_) (fun h => ?_) (fun h => ?_)
          · rcases le_or_lt (max R w) w with hMle | hMgt
            · have h2 := hr2 (by omega)
              omega
            · have h1 := hr1 (by omega)
              omega
          · exfalso
            omega
          · have h3 := hr3 (by omega)
            omega
        · exfalso
          have := hc3 hwb
          omega

end Wipe

namespace Wipe

/-- The pruned minimizing loop satisfies the Knuth-Moore relation against
the unpruned minimum whenever every child call does. -/
theorem abMinF_spec (f : List Nat → Int → Int → Int) (g : List Nat → Int)
    (board : List Nat) (toMove : Nat) :
    ∀ (moves : List (Int × Int)),
      (∀ m ∈ moves, ∀ alpha beta : Int, alpha < beta → NEG_INF ≤ alpha → beta ≤ POS_INF →
        KMrel (f (applyMove board m.1 m.2 toMove) alpha beta)
              (g (applyMove board m.1 m.2 toMove)) alpha beta) →
      ∀ alpha beta best : Int, alpha < beta → NEG_INF ≤ alpha → beta ≤ POS_INF →
        beta ≤ best →
        KMrel (abMinF f board toMove moves alpha beta best)
              (npMinF g board toMove moves best) alpha beta := by
  intro moves
  induction moves with
  | nil =>
    intro _ alpha beta best hab hna hbp hbb
    rw [abMinF, npMinF]
    exact KMrel_mk _ _ _ _ (fun _ => rfl) (fun h => ⟨le_refl _, by omega⟩)
      (fun h => ⟨hbb, le_refl _⟩)
  | cons m rest ih =>
    intro hf alpha beta best hab hna hbp hbb
    rw [abMinF, npMinF]
    obtain ⟨hc1, hc2, hc3⟩ :=
      hf m (List.mem_cons_self m rest) alpha beta hab hna hbp
    set c := f (applyMove board m.1 m.2 toMove) alpha beta with hcdef
    set w := g (applyMove board m.1 m.2 toMove) with hwdef
    by_cases hcut : (if c < beta then c else beta) ≤ alpha
    · rw [if_pos hcut]
      have hca : c ≤ alpha := by
        by_cases h : c < beta
        · rw [if_pos h] at hcut; exact hcut
        · rw [if_neg h] at hcut; omega
      have hwa : w ≤ alpha := by
        rcases lt_trichotomy w alpha with h | h | h
        · omega
        · omega
        · rcases lt_or_le w beta with h2 | h2
          · have := hc1 ⟨h, h2⟩; omega
          · have := (hc3 h2).1; omega
      have hwc := hc2 hwa
      rw [if_pos (by omega : c < best), if_pos (by omega : w < best)]
      have hM := npMinF_le_init g board toMove rest w
      refine KMrel_mk _ _ _ _ (fun h => ?_) (fun h => ?_) (fun h => ?_)
      · omega
      · exact ⟨by omega, by omega⟩
      · omega
    · rw [if_neg hcut]
      have hb1gt : alpha < (if c < beta then c else beta) := not_le.mp hcut
      have hb1le : (if c < beta then c else beta) ≤ (if c < best then c else best) := by
        by_cases h : c < beta
        · rw [if_pos h]; split <;> omega
        · rw [if_neg h]; split <;> omega
      have hbp1 : (if c < beta then c else beta) ≤ POS_INF := by split <;> omega
      have hr := ih (fun m1 hm1 => hf m1 (List.mem_cons_of_mem _ hm1)) alpha _ _
        hb1gt hna hbp1 hb1le
      have hbw1eq : (if w < best then w else best) = min best w := by split <;> omega
      have hMc : npMinF g board toMove rest (if c < best then c else best) =
          min (npMinF g board toMove rest best) c := by
        rw [show (if c < best then c else best) = min best c from by split <;> omega,
          npMinF_min]
      rw [hMc] at hr
      rw [hbw1eq, npMinF_min]
      set R := npMinF g board toMove rest best with hRdef
      obtain ⟨hr1, hr2, hr3⟩ := hr
      have hb1eq : (if c < beta then c else beta) = min beta c := by split <;> omega
      rcases le_or_lt beta w with hbw | hbw
      · obtain ⟨hbc, hcw⟩ := hc3 hbw
        refine KMrel_mk _ _ _ _ (fun h => ?_) (fun h => ?_) (fun h => ?_)
        · have h1 := hr1 (by omega)
          omega
        · have h2 := hr2 (by omega)
          omega
        · have h3 := hr3 (by omega)
          omega
      · rcases lt_or_le alpha w with hwa | hwa
        · have hcw : c = w := hc1 ⟨hwa, hbw⟩
          refine KMrel_mk _ _ _ _ (fun h => ?_) (fun h => ?_) (fun h => ?_)
          · rcases le_or_lt w (min R w) with hMge | hMlt
            · have h3 := hr3 (by omega)
              omega
            · have h1 := hr1 (by omega)
              omega
          · have h2 := hr2 (by omega)
            omega
          · exfalso
            omega
        · exfalso
          have := hc2 hwa
          omega


end Wipe
namespace Wipe

/-- `KMrel` is reflexive in its first two arguments. -/
theorem KMrel_refl (v alpha beta : Int) : KMrel v v alpha beta :=
  KMrel_mk _ _ _ _ (fun _ => rfl) (fun h => ⟨le_refl _, h⟩) (fun h => ⟨h, le_refl _⟩)

/-- Node-level Knuth-Moore correctness: at every window the pruned search
relates to the unpruned value. -/
theorem minimax_km : ∀ (depth : Nat) (board : List Nat) (toMove me : Nat) (alpha beta : Int),
    alpha < beta → NEG_INF ≤ alpha → beta ≤ POS_INF →
    KMrel (minimax depth board toMove me alpha beta) (minimaxNP depth board toMove me)
      alpha beta := by
  intro depth
  induction depth with
  | zero =>
    intro b t m alpha beta hab hna hbp
    have h1 : minimax 0 b t m alpha beta = evalBoard b m := by
      rw [minimax]; split <;> rfl
    have h2 : minimaxNP 0 b t m = evalBoard b m := by
      rw [minimaxNP]; split <;> rfl
    rw [h1, h2]
    exact KMrel_refl _ _ _
  | succ d ih =>
    intro b t m alpha beta hab hna hbp
    rw [minimax, minimaxNP]
    by_cases hterm :
        (!hasAnyLegalMove b m && !hasAnyLegalMove b (opponent m)) = true
    · rw [if_pos hterm, if_pos hterm]
      exact KMrel_refl _ _ _
    · rw [if_neg hterm, if_neg hterm]
      dsimp only
      by_cases hmv : getLegalMoves b t = []
      · rw [if_pos hmv, if_pos hmv]
        exact ih b (opponent t) m alpha beta hab hna hbp
      · rw [if_neg hmv, if_neg hmv]
        by_cases htm : t = m
        · rw [if_pos htm, if_pos htm]
          exact abMaxF_spec _ _ b t (getLegalMoves b t)
            (fun m1 _ a bb hab1 hna1 hbp1 =>
              ih (applyMove b m1.1 m1.2 t) (opponent t) m a bb hab1 hna1 hbp1)
            alpha beta NEG_INF hab hna hbp hna
        · rw [if_neg htm, if_neg htm]
          exact abMinF_spec _ _ b t (getLegalMoves b t)
            (fun m1 _ a bb hab1 hna1 hbp1 =>
              ih (applyMove b m1.1 m1.2 t) (opponent t) m a bb hab1 hna1 hbp1)
            alpha beta POS_INF hab hna hbp hbp

end Wipe
namespace Wipe

/-- Characterization of the scored-move selection loop: seeded with a
candidate, it returns a scored move at least as good as the seed and as
every listed move, and any non-seed result carries its own true score. -/
theorem bestLoop_char (board : List Nat) (ai : Nat) (cdepth : Nat) :
    ∀ (moves : List (Int × Int)) (b : (Int × Int) × Int),
      ∃ r, bestLoop board ai cdepth moves (some b) = some r ∧
        (r = b ∨ (r.1 ∈ moves ∧
          r.2 = minimax cdepth (applyMove board r.1.1 r.1.2 ai) (opponent ai) ai
            NEG_INF POS_INF)) ∧
        b.2 ≤ r.2 ∧
        ∀ m ∈ moves,
          minimax cdepth (applyMove board m.1 m.2 ai) (opponent ai) ai NEG_INF POS_INF ≤ r.2 := by
  intro moves
  induction moves with
  | nil =>
    intro b
    exact ⟨b, rfl, Or.inl rfl, le_refl _, fun m hm => absurd hm (List.not_mem_nil m)⟩
  | cons m rest ih =>
    intro b
    rw [bestLoop]
    set s := minimax cdepth (applyMove board m.1 m.2 ai) (opponent ai) ai NEG_INF POS_INF
      with hsdef
    by_cases hbs : b.2 < s
    · obtain ⟨r, hr, hcase, hble, hall⟩ := ih (m, s)
      refine ⟨r, ?_, ?_, ?_, ?_⟩
      · rw [if_pos hbs]
        exact hr
      · rcases hcase with h | h
        · exact Or.inr ⟨by rw [h]; exact List.mem_cons_self m rest, by rw [h]⟩
        · exact Or.inr ⟨List.mem_cons_of_mem m h.1, h.2⟩
      · omega
      · intro m1 hm1
        rcases List.mem_cons.mp hm1 with h | h
        · subst h; omega
        · exact hall m1 h
    · obtain ⟨r, hr, hcase, hble, hall⟩ := ih b
      refine ⟨r, ?_, ?_, ?_, ?_⟩
      · rw [if_neg hbs]
        exact hr
      · rcases hcase with h | h
        · exact Or.inl h
        · exact Or.inr ⟨List.mem_cons_of_mem m h.1, h.2⟩
      · exact hble
      · intro m1 hm1
        rcases List.mem_cons.mp hm1 with h | h
        · subst h; omega
        · exact hall m1 h

end Wipe
namespace Wipe

/-- C10: alpha-beta pruning does not change the computed value.  On every
64-cell board, for every side to move, perspective player and depth,
`minimax` at the full window equals the identical recursion with the
pruning cutoffs removed (`minimaxNP`); consequently for levels 1-3
`chooseAiMove` returns a legal move whose unpruned minimax value is maximal
among the legal moves. -/
theorem c10_alpha_beta_equiv :
    (∀ (depth : Nat) (board : List Nat) (toMove me : Nat), board.length = 64 →
      minimax depth board toMove me NEG_INF POS_INF = minimaxNP depth board toMove me) ∧
    (∀ (board : List Nat) (ai : Nat) (level : Int) (rng : Nat) (m : Int × Int),
      board.length = 64 → 1 ≤ level → level ≤ 3 →
      chooseAiMove board ai level rng = some m →
      m ∈ getLegalMoves board ai ∧
      ∀ m1 ∈ getLegalMoves board ai,
        minimaxNP (depthByLevel level - 1) (applyMove board m1.1 m1.2 ai) (opponent ai) ai ≤
        minimaxNP (depthByLevel level - 1) (applyMove board m.1 m.2 ai) (opponent ai) ai) := by
  have hN : NEG_INF = -(10 ^ 9) := rfl
  have hP : POS_INF = 10 ^ 9 := rfl
  have key : ∀ (depth : Nat) (board : List Nat) (toMove me : Nat), board.length = 64 →
      minimax depth board toMove me NEG_INF POS_INF = minimaxNP depth board toMove me := by
    intro depth b t m hb
    have hkm := minimax_km depth b t m NEG_INF POS_INF (by rw [hN, hP]; omega)
      (le_refl _) (le_refl _)
    have hbd := minimaxNP_bound depth b t m hb
    exact hkm.1 ⟨by rw [hN]; omega, by rw [hP]; omega⟩
  refine ⟨key, ?_⟩
  intro b ai level rng m hb h1 h3 hm
  simp only [chooseAiMove] at hm
  by_cases hmv : getLegalMoves b ai = []
  · rw [if_pos hmv] at hm
    exact absurd hm (by simp)
  · rw [if_neg hmv] at hm
    have hlv : max 0 (min 3 level) = level := by omega
    rw [hlv, if_neg (by omega : ¬ level = 0)] at hm
    cases hx : getLegalMoves b ai with
    | nil => exact absurd hx hmv
    | cons m0 rest =>
      rw [hx] at hm
      simp only [bestLoop] at hm
      obtain ⟨r, hr, hcase, hble, hall⟩ := bestLoop_char b ai (depthByLevel level - 1) rest
        (m0, minimax (depthByLevel level - 1) (applyMove b m0.1 m0.2 ai) (opponent ai) ai
          NEG_INF POS_INF)
      rw [hr] at hm
      have hm1 : r.1 = m := by
        simpa using hm
      subst hm1
      have hnp : ∀ mv : Int × Int,
          minimax (depthByLevel level - 1) (applyMove b mv.1 mv.2 ai) (opponent ai) ai
            NEG_INF POS_INF =
          minimaxNP (depthByLevel level - 1) (applyMove b mv.1 mv.2 ai) (opponent ai) ai :=
        fun mv => key _ _ _ _ (by rw [applyMove_length]; exact hb)
      have hscore : r.2 = minimax (depthByLevel level - 1)
          (applyMove b r.1.1 r.1.2 ai) (opponent ai) ai NEG_INF POS_INF := by
        rcases hcase with hcr | hcr
        · rw [hcr]
        · exact hcr.2
      constructor
      · rcases hcase with hcr | hcr
        · rw [hcr]
          exact List.mem_cons_self m0 rest
        · exact List.mem_cons_of_mem m0 hcr.1
      · intro m1 hm1
        rw [← hnp m1, ← hnp r.1, ← hscore]
        rcases List.mem_cons.mp hm1 with h | h
        · subst h
          exact hble
        · exact hall m1 h

end Wipe
namespace Wipe

set_option maxRecDepth 100000 in
theorem c10_witness :
    minimax 2 createInitialBoard 1 1 NEG_INF POS_INF = minimaxNP 2 createInitialBoard 1 1 ∧
    ((3 : Int), (2 : Int)) ∈ getLegalMoves createInitialBoard 1 ∧
    ∀ m1 ∈ getLegalMoves createInitialBoard 1,
      minimaxNP (depthByLevel 1 - 1) (applyMove createInitialBoard m1.1 m1.2 1) (opponent 1) 1 ≤
      minimaxNP (depthByLevel 1 - 1) (applyMove createInitialBoard 3 2 1) (opponent 1) 1 := by
  have h := c10_alpha_beta_equiv.2 createInitialBoard 1 1 0 (3, 2) (by decide) (by decide)
    (by decide) (by decide)
  exact ⟨c10_alpha_beta_equiv.1 2 createInitialBoard 1 1 (by decide), h.1, h.2⟩

end Wipe
namespace Wipe

/-- Modelled from the spec: `chooseAiMove` as C5 describes it.  "Search
depths of 1, 3 and 5 ply of opponent-response lookahead beyond the
immediate move" means that after a candidate move is applied the search
explores `depthByLevel lv` further plies, i.e. each child call receives
depth `depthByLevel lv`; the source instead passes `depth - 1` (0, 2 and 4
further plies). -/
def chooseAiMoveSpecLA (board : List Nat) (ai : Nat) (level : Int) (rng : Nat) :
    Option (Int × Int) :=
  let moves := getLegalMoves board ai
  if moves = [] then none
  else
    let lv := max 0 (min 3 level)
    if lv = 0 then some (pickRandom moves rng)
    else
      match bestLoop board ai (depthByLevel lv) moves none with
      | some b => some b.1
      | none => some (pickRandom moves rng)

/-- A mid-game position distinguishing the two lookahead readings: white on
27, 28, 29 and black on 35, 36, 44, with black to move. -/
def cb5 : List Nat :=
  (List.range 64).map (fun i =>
    if i = 27 then 2 else if i = 28 then 2 else if i = 29 then 2
    else if i = 35 then 1 else if i = 36 then 1 else if i = 44 then 1 else 0)

set_option maxRecDepth 100000 in
/-- C5 counterexample: at level 1 the source evaluates each candidate move
with zero further plies (`minimax` at depth 0), not the claimed 1 ply of
opponent-response lookahead, and on `cb5` the two readings pick different
moves. -/
theorem c5_counterexample :
    chooseAiMove cb5 1 1 0 = some (4, 2) ∧
    chooseAiMoveSpecLA cb5 1 1 0 = some (2, 2) ∧
    chooseAiMove cb5 1 1 0 ≠ chooseAiMoveSpecLA cb5 1 1 0 := by
  have h1 : chooseAiMove cb5 1 1 0 = some (4, 2) := by decide
  have h2 : chooseAiMoveSpecLA cb5 1 1 0 = some (2, 2) := by decide
  refine ⟨h1, h2, ?_⟩
  rw [h1, h2]
  decide

/-- C5 (amended): `chooseAiMove` returns `null` iff the acting side has no
legal move; at clamped level 0 it returns the legal move indexed by the
random word modulo the list length, with no search; at levels 1-3 it
returns a legal move maximizing the alpha-beta `minimax` value at depth
`depthByLevel level - 1` (0, 2 and 4 plies beyond the immediate move). -/
theorem c5_choose_ai_move (board : List Nat) (ai : Nat) (level : Int) (rng : Nat) :
    (chooseAiMove board ai level rng = none ↔ getLegalMoves board ai = []) ∧
    (level ≤ 0 → getLegalMoves board ai ≠ [] →
      chooseAiMove board ai level rng =
        some ((getLegalMoves board ai).getD (rng % (getLegalMoves board ai).length) (0, 0))) ∧
    (1 ≤ level → level ≤ 3 → ∀ m, chooseAiMove board ai level rng = some m →
      m ∈ getLegalMoves board ai ∧
      ∀ m1 ∈ getLegalMoves board ai,
        minimax (depthByLevel level - 1) (applyMove board m1.1 m1.2 ai) (opponent ai) ai
          NEG_INF POS_INF ≤
        minimax (depthByLevel level - 1) (applyMove board m.1 m.2 ai) (opponent ai) ai
          NEG_INF POS_INF) := by
  refine ⟨?_, ?_, ?_⟩
  · simp only [chooseAiMove]
    by_cases hmv : getLegalMoves board ai = []
    · rw [if_pos hmv]
      simp [hmv]
    · rw [if_neg hmv]
      refine ⟨fun h => ?_, fun h => absurd h hmv⟩
      exfalso
      by_cases h0 : max 0 (min 3 level) = 0
      · rw [if_pos h0] at h
        exact Option.noConfusion h
      · rw [if_neg h0] at h
        cases hbl : bestLoop board ai (depthByLevel (max 0 (min 3 level)) - 1)
            (getLegalMoves board ai) none with
        | none => rw [hbl] at h; exact Option.noConfusion h
        | some bb => rw [hbl] at h; exact Option.noConfusion h
  · intro hl0 hne
    simp only [chooseAiMove]
    rw [if_neg hne]
    have h0 : max 0 (min 3 level) = 0 := by omega
    rw [h0, if_pos rfl]
    rfl
  · intro h1 h3 m hm
    simp only [chooseAiMove] at hm
    by_cases hmv : getLegalMoves board ai = []
    · rw [if_pos hmv] at hm
      exact absurd hm (by simp)
    · rw [if_neg hmv] at hm
      have hlv : max 0 (min 3 level) = level := by omega
      rw [hlv, if_neg (by omega : ¬ level = 0)] at hm
      cases hx : getLegalMoves board ai with
      | nil => exact absurd hx hmv
      | cons m0 rest =>
        rw [hx] at hm
        simp only [bestLoop] at hm
        obtain ⟨r, hr, hcase, hble, hall⟩ := bestLoop_char board ai (depthByLevel level - 1) rest
          (m0, minimax (depthByLevel level - 1) (applyMove board m0.1 m0.2 ai) (opponent ai) ai
            NEG_INF POS_INF)
        rw [hr] at hm
        have hm1 : r.1 = m := by
          simpa using hm
        subst hm1
        have hscore : r.2 = minimax (depthByLevel level - 1)
            (applyMove board r.1.1 r.1.2 ai) (opponent ai) ai NEG_INF POS_INF := by
          rcases hcase with hcr | hcr
          · rw [hcr]
          · exact hcr.2
        constructor
        · rcases hcase with hcr | hcr
          · rw [hcr]
            exact List.mem_cons_self m0 rest
          · exact List.mem_cons_of_mem m0 hcr.1
        · intro m1 hm1
          rw [← hscore]
          rcases List.mem_cons.mp hm1 with h | h
          · subst h
            exact hble
          · exact hall m1 h

set_option maxRecDepth 100000 in
theorem c5_witness :
    (chooseAiMove createInitialBoard 1 0 5 = none ↔ getLegalMoves createInitialBoard 1 = []) ∧
    chooseAiMove createInitialBoard 1 0 5 =
      some ((getLegalMoves createInitialBoard 1).getD
        (5 % (getLegalMoves createInitialBoard 1).length) (0, 0)) ∧
    ((3 : Int), (2 : Int)) ∈ getLegalMoves createInitialBoard 1 ∧
    ∀ m1 ∈ getLegalMoves createInitialBoard 1,
      minimax (depthByLevel 1 - 1) (applyMove createInitialBoard m1.1 m1.2 1) (opponent 1) 1
        NEG_INF POS_INF ≤
      minimax (depthByLevel 1 - 1) (applyMove createInitialBoard 3 2 1) (opponent 1) 1
        NEG_INF POS_INF := by
  have ha := c5_choose_ai_move createInitialBoard 1 0 5
  have hb := (c5_choose_ai_move createInitialBoard 1 1 0).2.2 (by decide) (by decide) (3, 2)
    (by decide)
  exact ⟨ha.1, ha.2.1 (by decide) (by decide), hb.1, hb.2⟩

end Wipe
